import Mathlib

/-!
Verification of the batched corpus-generation and streaming-serialization
pipeline of the dataset generators (document_generator.py,
performance_generator.py, logs_generator.py).

Conventions of the shallow embedding:
* Python unbounded integers are ℤ/ℕ.
* Python floats are modelled as exact rationals together with an explicit
  round-to-nearest-even operation (`roundFloat`) at 53 bits of precision:
  a float literal is embedded as the exact rational value of its IEEE-754
  binary64 representation, and every arithmetic operation on floats rounds
  its exact rational result.  Subnormals and overflow do not occur at any
  value reached in this development, so `roundFloat` implements only the
  normal range.
* The global Mersenne-Twister state of the `random` module is modelled as an
  oracle stream `σ : ℕ → ℕ` of draws, each already reduced into the range
  the call site requests (via `%`); the Faker generator is a second oracle
  stream producing strings.  Seeding replaces the ambient streams by streams
  that are a function of the seed alone.
* Documents are modelled at two granularities: for ordering/counting claims a
  document is its identity `(tier, sequential index)` — the Python id string
  "{tier}_{i}" is uniquely determined by and determines this pair, because
  the four tier names are pairwise distinct and contain no underscore; for
  serialization claims a document is a JSON value (`Json` below).
-/

/-- Round half to even on ℚ (the IEEE-754 tie-breaking rule). -/
def rne (q : ℚ) : ℤ :=
  let n := ⌊q⌋
  let r := q - n
  if r < 1/2 then n else if 1/2 < r then n + 1 else if n % 2 = 0 then n else n + 1

/-- Exponent of the unit in the last place of a binary64 value in the normal
range: the significand carries 52 fractional bits. -/
def ulpExp (x : ℚ) : ℤ := Int.log 2 x - 52

/-- Correct rounding of a nonnegative exact rational to the binary64 grid
(round to nearest, ties to even).  Only the normal range is implemented;
every value rounded in this development lies in it (or is 0). -/
def roundFloat (x : ℚ) : ℚ :=
  if x ≤ 0 then 0 else (rne (x / 2 ^ ulpExp x) : ℚ) * 2 ^ ulpExp x

/-- Exact value of the binary64 nearest to the literal 0.4
(0x1.999999999999ap-2). -/
def dbl04 : ℚ := 3602879701896397 / 2 ^ 53

/-- Exact value of the binary64 nearest to the literal 0.35
(0x1.6666666666666p-2). -/
def dbl035 : ℚ := 3152519739159347 / 2 ^ 53

/-- Exact value of the binary64 nearest to the literal 0.2
(0x1.999999999999ap-3). -/
def dbl02 : ℚ := 3602879701896397 / 2 ^ 54

/-- Exact value of the binary64 nearest to the literal 0.05
(0x1.999999999999ap-5). -/
def dbl005 : ℚ := 3602879701896397 / 2 ^ 56

/-- Python `int(x)` on a nonnegative float: truncation toward zero. -/
def pyTrunc (x : ℚ) : ℤ := if 0 ≤ x then ⌊x⌋ else -⌊-x⌋

/-- Python `t * w` where `t` is an int and `w` a float: `t` is converted to
float (rounded) and the float product is rounded. -/
def pyIntTimesFloat (t : ℕ) (w : ℚ) : ℚ := roundFloat (roundFloat t * w)

/-- `int(total_count * 0.4)` — the small-tier count used by both
`DocumentGenerator.generate_mixed_documents` and
`PerformanceGenerator.generate_performance_dataset`. -/
def smallCount (t : ℕ) : ℤ := pyTrunc (pyIntTimesFloat t dbl04)

/-- `int(total_count * 0.35)` — the medium-tier count (both generators). -/
def mediumCount (t : ℕ) : ℤ := pyTrunc (pyIntTimesFloat t dbl035)

/-- `int(total_count * 0.2)` — the large-tier count (both generators). -/
def largeCount (t : ℕ) : ℤ := pyTrunc (pyIntTimesFloat t dbl02)

/-- `huge_count = total_count - small_count - medium_count - large_count`
(document_generator.py line 278: the last tier receives the remainder). -/
def docHugeCount (t : ℕ) : ℤ := t - smallCount t - mediumCount t - largeCount t

/-- `'huge': int(total_count * 0.05)` (performance_generator.py line 240:
the last tier is truncated like the others, NOT assigned the remainder). -/
def perfHugeCount (t : ℕ) : ℤ := pyTrunc (pyIntTimesFloat t dbl005)

/-- The four structural size tiers. -/
inductive Tier where
  | small
  | medium
  | large
  | huge
deriving DecidableEq

/-- A tier selector: one fixed tier, or the mixed distribution. -/
inductive Sel where
  | tier (t : Tier)
  | mixed
deriving DecidableEq

/-- Order-level document: its identity `(tier, sequential index)`, which the
Python code renders as the id string "{tier}_{index}". -/
abbrev DocId := Tier × ℕ

/-- Python `range(n)` where `n` is a possibly negative int: empty below 0. -/
def intRange (n : ℤ) : List ℕ := List.range n.toNat

/-- One step of CPython `random.shuffle`: `x[i], x[j] = x[j], x[i]`. -/
def listSwap (l : List α) (i j : ℕ) : List α :=
  match l[i]?, l[j]? with
  | some x, some y => (l.set i y).set j x
  | _, _ => l

/-- The loop of CPython `random.shuffle`: for i from `len-1` down to 1,
swap `x[i]` with `x[j]` where `j = _randbelow(i+1)`; the draw at loop index
`i` is modelled as `σ i % (i+1)`. -/
def fyGo (σ : ℕ → ℕ) : List α → ℕ → List α
  | l, 0 => l
  | l, i + 1 => fyGo σ (listSwap l (i + 1) (σ (i + 1) % (i + 2))) i

/-- CPython `random.shuffle` driven by the draw oracle `σ`. -/
def fisherYates (σ : ℕ → ℕ) (l : List α) : List α := fyGo σ l (l.length - 1)

/-- `DocumentGenerator.generate_documents` for a single tier: ids
"{tier}_0" … "{tier}_{count-1}". -/
def docTierDocs (t : Tier) (count : ℕ) : List DocId :=
  (List.range count).map fun i => (t, i)

/-- The tier-sequential corpus built by
`DocumentGenerator.generate_mixed_documents` before its shuffle: each tier
is numbered from 0 and the four blocks are concatenated in tier order. -/
def docMixedBase (total : ℕ) : List DocId :=
  (intRange (smallCount total)).map (fun i => (Tier.small, i))
    ++ (intRange (mediumCount total)).map (fun i => (Tier.medium, i))
    ++ (intRange (largeCount total)).map (fun i => (Tier.large, i))
    ++ (intRange (docHugeCount total)).map (fun i => (Tier.huge, i))

/-- `DocumentGenerator.generate_mixed_documents`: per-tier generation in tier
order followed by `random.shuffle`. -/
def generate_mixed_documents (σ : ℕ → ℕ) (total : ℕ) : List DocId :=
  fisherYates σ (docMixedBase total)

/-- `DocumentGenerator.generate_documents`: dispatch on the requested type.
The `ValueError` branch for an unknown type is unreachable because the CLI
restricts `--type` to the five registered choices, which `Sel` enumerates. -/
def generate_documents (sel : Sel) (count : ℕ) (σ : ℕ → ℕ) : List DocId :=
  match sel with
  | .tier t => docTierDocs t count
  | .mixed => generate_mixed_documents σ count

/-- The batch loop of `PerformanceGenerator.generate_performance_dataset` for
one tier: repeatedly emit `min batchSize remaining` documents with
sequential ids starting at `startId`, until the tier quota is exhausted
(`bs = 0` would raise ZeroDivisionError in Python computing the batch count;
it is modelled as producing nothing and is never reached: the CLI default is
1000 and every run modelled here uses a positive batch size). -/
def perfBatched (t : Tier) (startId remaining bs : ℕ) : List DocId :=
  if bs = 0 then []
  else if remaining = 0 then []
  else
    let chunk := min bs remaining
    ((List.range chunk).map fun i => (t, startId + i))
      ++ perfBatched t (startId + chunk) (remaining - chunk) bs
termination_by remaining
decreasing_by
  have : 0 < min bs remaining := by
    simp only [Nat.lt_min]
    omega
  omega

/-- The tier-sequential mixed corpus built by
`PerformanceGenerator.generate_performance_dataset` before its shuffle:
`current_id` runs continuously across the four tiers. -/
def perfMixedBase (total bs : ℕ) : List DocId :=
  let s := (smallCount total).toNat
  let m := (mediumCount total).toNat
  let l := (largeCount total).toNat
  let h := (perfHugeCount total).toNat
  perfBatched Tier.small 0 s bs
    ++ perfBatched Tier.medium s m bs
    ++ perfBatched Tier.large (s + m) l bs
    ++ perfBatched Tier.huge (s + m + l) h bs

/-- `PerformanceGenerator.generate_performance_dataset`: mixed requests build
the four tier blocks and then `random.shuffle` the whole list; single-tier
requests run the batch loop once with ids from 0. -/
def generate_performance_dataset (sel : Sel) (total bs : ℕ) (σ : ℕ → ℕ) :
    List DocId :=
  match sel with
  | .tier t => perfBatched t 0 total bs
  | .mixed => fisherYates σ (perfMixedBase total bs)

/-- The save dispatch of performance_generator.py line 359:
`if args.streaming or len(documents) > 50000:` use the streaming writer. -/
def perfUseStreaming (flag : Bool) (docCount : ℕ) : Bool :=
  flag || decide (docCount > 50000)

/-- Flush count of `PerformanceGenerator.save_as_ndjson_streaming`: the sink
is flushed after document `i` (0-based) exactly when `(i+1) % chunk == 0`. -/
def streamFlushCount (n chunk : ℕ) : ℕ :=
  ((List.range n).filter fun i => (i + 1) % chunk == 0).length

/-- Flush count as driven by performance_generator.py main (line 360): the
call `save_as_ndjson_streaming(documents, args.output)` omits `chunk_size`,
so the default 1000 is used and the request batch size plays no role. -/
def mainStreamFlushCount (_batchSize n : ℕ) : ℕ := streamFlushCount n 1000

/-- Both save paths of performance_generator.py main write the documents in
list order (one serialized line per document); the emitted document order is
the generated list. -/
def perfMainEmit (σ : ℕ → ℕ) (_streamingFlag : Bool) (total bs : ℕ) :
    List DocId :=
  generate_performance_dataset Sel.mixed total bs σ

/-- Number of documents of a given tier in a corpus. -/
def tierCount (docs : List DocId) (t : Tier) : ℕ :=
  docs.countP fun d => d.1 == t

/-- JSON value, the content-level model of a Document: an arbitrarily nested
mapping from string keys to scalars, sequences, or nested mappings.  Python
floats appear as their exact rational binary64 values (constructor
`jfloat`); Python ints as `jint`. -/
inductive Json where
  | jnull
  | jbool (b : Bool)
  | jint (n : ℤ)
  | jfloat (q : ℚ)
  | jstr (s : List Char)
  | jarr (elems : List Json)
  | jobj (members : List (List Char × Json))

/-- Lowercase hexadecimal digit, as CPython's json encoder emits. -/
def hexDigitChar (n : ℕ) : Char := if n < 10 then Char.ofNat (48 + n) else Char.ofNat (87 + n)

/-- Four lowercase hex digits of a value below 0x10000. -/
def hex4 (n : ℕ) : List Char :=
  [hexDigitChar (n / 4096 % 16), hexDigitChar (n / 256 % 16),
   hexDigitChar (n / 16 % 16), hexDigitChar (n % 16)]

/-- A \uXXXX escape. -/
def uEscape (n : ℕ) : List Char := '\\' :: 'u' :: hex4 n

/-- Escaping of one character exactly as `json.dumps` with its default
`ensure_ascii=True`: the two JSON specials and the five short control
escapes, \u00XX for the other control characters, \uXXXX for every
non-ASCII character, with surrogate pairs above 0xFFFF. -/
def escapeChar (c : Char) : List Char :=
  if c = '"' then ['\\', '"']
  else if c = '\\' then ['\\', '\\']
  else if c = '\x08' then ['\\', 'b']
  else if c = '\x0C' then ['\\', 'f']
  else if c = '\n' then ['\\', 'n']
  else if c = '\r' then ['\\', 'r']
  else if c = '\t' then ['\\', 't']
  else if c.toNat < 32 ∨ 126 < c.toNat then
    if c.toNat < 65536 then uEscape c.toNat
    else uEscape (55296 + (c.toNat - 65536) / 1024) ++ uEscape (56320 + (c.toNat - 65536) % 1024)
  else [c]

/-- JSON string serialization: quote, escaped body, quote. -/
def serStr (s : List Char) : List Char := '"' :: (s.map escapeChar).flatten ++ ['"']

/-- Decimal digits of `n`, most significant first (fueled helper). -/
def natDigitsAux : ℕ → ℕ → List Char
  | 0, _ => []
  | fuel + 1, n =>
    if n < 10 then [Char.ofNat (48 + n)]
    else natDigitsAux fuel (n / 10) ++ [Char.ofNat (48 + n % 10)]

/-- Decimal rendering of a natural number. -/
def renderNat (n : ℕ) : List Char := natDigitsAux (n + 1) n

/-- Decimal rendering of an integer, as `json.dumps` writes a Python int. -/
def renderInt (i : ℤ) : List Char := if i < 0 then '-' :: renderNat (-i).toNat else renderNat i.toNat

/-- Exponent search: `isPow2Aux fuel n = some k` iff `n = 2^k` (fuel `n`
suffices). -/
def isPow2Aux : ℕ → ℕ → Option ℕ
  | 0, _ => none
  | fuel + 1, n =>
    if n = 1 then some 0
    else if n % 2 = 0 ∧ n ≠ 0 then (isPow2Aux fuel (n / 2)).map (· + 1)
    else none

/-- The exponent of a power of two, if any. -/
def pow2Exp (n : ℕ) : Option ℕ := isPow2Aux n n

/-- Left-pad a digit string with zeros to width `k`. -/
def padZeros (k : ℕ) (ds : List Char) : List Char := List.replicate (k - ds.length) '0' ++ ds

/-- Decimal rendering of the nonnegative dyadic rational `num / den`
(`den = 2^k`): every binary64 value has a finite decimal expansion, written
with exactly `k` fractional digits (at least one, as Python float repr
always shows a fractional part).  CPython's repr chooses the shortest
decimal that parses back to the same double; both renderings denote the
same value exactly, which is what the round-trip property consumes.  The
`none` branch is unreachable for binary64 denominators. -/
def renderFloatAbs (num den : ℕ) : List Char :=
  match pow2Exp den with
  | some k =>
    if k = 0 then renderNat num ++ ['.', '0']
    else renderNat (num * 5 ^ k / 10 ^ k) ++ '.' :: padZeros k (renderNat (num * 5 ^ k % 10 ^ k))
  | none => renderNat num ++ ['.', '0']

/-- Serialization of a float (sign plus decimal expansion). -/
def serFloat (q : ℚ) : List Char :=
  if q < 0 then '-' :: renderFloatAbs (-q).num.toNat (-q).den
  else renderFloatAbs q.num.toNat q.den

mutual
/-- Serialization of one document exactly as `json.dumps(doc)` with default
separators: `", "` between items and `": "` after keys, no indentation. -/
def serJson : Json → List Char
  | .jnull => ['n', 'u', 'l', 'l']
  | .jbool true => ['t', 'r', 'u', 'e']
  | .jbool false => ['f', 'a', 'l', 's', 'e']
  | .jint n => renderInt n
  | .jfloat q => serFloat q
  | .jstr s => serStr s
  | .jarr xs => '[' :: serElems xs ++ [']']
  | .jobj kvs => '{' :: serMembers kvs ++ ['}']

/-- Array elements joined by `", "`. -/
def serElems : List Json → List Char
  | [] => []
  | [x] => serJson x
  | x :: y :: xs => serJson x ++ ',' :: ' ' :: serElems (y :: xs)

/-- Object members `"key": value` joined by `", "`. -/
def serMembers : List (List Char × Json) → List Char
  | [] => []
  | [(k, v)] => serStr k ++ ':' :: ' ' :: serJson v
  | (k, v) :: m :: kvs => serStr k ++ ':' :: ' ' :: serJson v ++ ',' :: ' ' :: serMembers (m :: kvs)
end

mutual
/-- Well-formedness of a document: every float it contains is a dyadic
rational (true of every value a Python float can hold). -/
def wfJson : Json → Bool
  | .jfloat q => (pow2Exp q.den).isSome
  | .jarr xs => wfElems xs
  | .jobj kvs => wfMembers kvs
  | _ => true

/-- `wfJson` on every element. -/
def wfElems : List Json → Bool
  | [] => true
  | x :: xs => wfJson x && wfElems xs

/-- `wfJson` on every member value. -/
def wfMembers : List (List Char × Json) → Bool
  | [] => true
  | (_, v) :: kvs => wfJson v && wfMembers kvs
end

mutual
/-- Structural size of a document, used as the fuel bound of the reader. -/
def sizeJ : Json → ℕ
  | .jnull => 1
  | .jbool _ => 1
  | .jint _ => 1
  | .jfloat _ => 1
  | .jstr s => s.length + 1
  | .jarr xs => sizeElems xs + 1
  | .jobj kvs => sizeMembers kvs + 1

/-- Size of an element list. -/
def sizeElems : List Json → ℕ
  | [] => 0
  | x :: xs => sizeJ x + 2 + sizeElems xs

/-- Size of a member list. -/
def sizeMembers : List (List Char × Json) → ℕ
  | [] => 0
  | (k, v) :: kvs => k.length + sizeJ v + 3 + sizeMembers kvs
end

/-- ASCII decimal digit test. -/
def isDigitC (c : Char) : Bool := 48 ≤ c.toNat && c.toNat ≤ 57

/-- Value of a decimal digit character. -/
def digitVal (c : Char) : ℕ := c.toNat - 48

/-- Value of a big-endian decimal digit string. -/
def digitsToNat (ds : List Char) : ℕ := ds.foldl (fun a c => a * 10 + digitVal c) 0

/-- JSON whitespace. -/
def isWs (c : Char) : Bool := c = ' ' || c = '\t' || c = '\n' || c = '\r'

/-- Skip JSON whitespace. -/
def skipWs (s : List Char) : List Char := s.dropWhile isWs

/-- Value of one hexadecimal digit (either case). -/
def hexVal (c : Char) : Option ℕ :=
  if 48 ≤ c.toNat ∧ c.toNat ≤ 57 then some (c.toNat - 48)
  else if 97 ≤ c.toNat ∧ c.toNat ≤ 102 then some (c.toNat - 87)
  else if 65 ≤ c.toNat ∧ c.toNat ≤ 70 then some (c.toNat - 55)
  else none

/-- Read four hex digits. -/
def parse4Hex : List Char → Option (ℕ × List Char)
  | a :: b :: c :: d :: r =>
    match hexVal a, hexVal b, hexVal c, hexVal d with
    | some va, some vb, some vc, some vd => some (((va * 16 + vb) * 16 + vc) * 16 + vd, r)
    | _, _, _, _ => none
  | _ => none

/-- A character from its scalar value, if valid (surrogates rejected: the
decoder only builds characters from scalar values, pairing surrogates). -/
def mkChar (n : ℕ) : Option Char :=
  if _h : n < 55296 ∨ (57343 < n ∧ n < 1114112) then some (Char.ofNat n) else none

/-- The short escapes of JSON. -/
def simpleUnescape (e : Char) : Option Char :=
  if e = '"' then some '"'
  else if e = '\\' then some '\\'
  else if e = '/' then some '/'
  else if e = 'b' then some '\x08'
  else if e = 'f' then some '\x0C'
  else if e = 'n' then some '\n'
  else if e = 'r' then some '\r'
  else if e = 't' then some '\t'
  else none

/-- Decode one character of a JSON string body (plain, short escape,
\uXXXX, or surrogate pair); lone surrogates are rejected. -/
def decodeOne : List Char → Option (Char × List Char)
  | [] => none
  | c :: r =>
    if c = '\\' then
      match r with
      | [] => none
      | e :: r2 =>
        if e = 'u' then
          match parse4Hex r2 with
          | none => none
          | some (n, r3) =>
            if 55296 ≤ n ∧ n ≤ 56319 then
              (match r3 with
              | b1 :: b2 :: r4 =>
                if b1 = '\\' ∧ b2 = 'u' then
                  (match parse4Hex r4 with
                  | none => none
                  | some (m, r5) =>
                    if 56320 ≤ m ∧ m ≤ 57343 then
                      (mkChar (65536 + (n - 55296) * 1024 + (m - 56320))).map fun ch => (ch, r5)
                    else none)
                else none
              | _ => none)
            else (mkChar n).map fun ch => (ch, r3)
        else (simpleUnescape e).map fun ch => (ch, r2)
    else some (c, r)

/-- Read a JSON string body up to the closing quote (fueled: one unit per
decoded character). -/
def pStr : ℕ → List Char → Option (List Char × List Char)
  | 0, _ => none
  | _ + 1, [] => none
  | f + 1, c :: r =>
    if c = '"' then some ([], r)
    else
      match decodeOne (c :: r) with
      | none => none
      | some (ch, r2) => (pStr f r2).map fun p => (ch :: p.1, p.2)

/-- Negation of a parsed number. -/
def jneg : Json → Json
  | .jint n => .jint (-n)
  | .jfloat q => .jfloat (-q)
  | j => j

/-- Read an unsigned JSON number: integer digits, then an optional fraction
(a value with a decimal point reads back as a float, one without as an int,
as Python's json module distinguishes them).  Exponent notation is not
consumed; the serializer above never emits it. -/
def pNumAbs (s : List Char) : Option (Json × List Char) :=
  let ip := s.takeWhile isDigitC
  let r1 := s.dropWhile isDigitC
  if ip.isEmpty then none
  else if r1.head? = some '.' then
    let r2 := r1.tail
    let fp := r2.takeWhile isDigitC
    let r3 := r2.dropWhile isDigitC
    if fp.isEmpty then none
    else some (.jfloat (((digitsToNat ip : ℚ) * 10 ^ fp.length + (digitsToNat fp : ℚ)) / 10 ^ fp.length), r3)
  else some (.jint (digitsToNat ip), r1)

/-- Read a JSON number with optional sign. -/
def pNum (s : List Char) : Option (Json × List Char) :=
  match s with
  | [] => none
  | c :: r =>
    if c = '-' then (pNumAbs r).map fun p => (jneg p.1, p.2)
    else pNumAbs (c :: r)

mutual
/-- Read one JSON value (fueled recursion; the fuel of `parseLine` below is
ample for any input of its length). -/
def pVal : ℕ → List Char → Option (Json × List Char)
  | 0, _ => none
  | f + 1, s0 =>
    match skipWs s0 with
    | [] => none
    | c :: r =>
      if c = 'n' then
        if r.take 3 = ['u', 'l', 'l'] then some (.jnull, r.drop 3) else none
      else if c = 't' then
        if r.take 3 = ['r', 'u', 'e'] then some (.jbool true, r.drop 3) else none
      else if c = 'f' then
        if r.take 4 = ['a', 'l', 's', 'e'] then some (.jbool false, r.drop 4) else none
      else if c = '"' then
        match pStr (f + 1) r with
        | none => none
        | some (str, r2) => some (.jstr str, r2)
      else if c = '[' then
        match skipWs r with
        | [] => none
        | b :: r2 => if b = ']' then some (.jarr [], r2) else pElems f r []
      else if c = '{' then
        match skipWs r with
        | [] => none
        | b :: r2 => if b = '}' then some (.jobj [], r2) else pMembers f r []
      else pNum (c :: r)

/-- Read the elements of a non-empty array. -/
def pElems : ℕ → List Char → List Json → Option (Json × List Char)
  | 0, _, _ => none
  | f + 1, s, acc =>
    match pVal f s with
    | none => none
    | some (v, r) =>
      match skipWs r with
      | [] => none
      | c :: r2 =>
        if c = ',' then pElems f r2 (acc ++ [v])
        else if c = ']' then some (.jarr (acc ++ [v]), r2)
        else none

/-- Read the members of a non-empty object. -/
def pMembers : ℕ → List Char → List (List Char × Json) → Option (Json × List Char)
  | 0, _, _ => none
  | f + 1, s, acc =>
    match skipWs s with
    | [] => none
    | c :: r =>
      if c = '"' then
        match pStr (f + 1) r with
        | none => none
        | some (k, r2) =>
          match skipWs r2 with
          | [] => none
          | c2 :: r3 =>
            if c2 = ':' then
              match pVal f r3 with
              | none => none
              | some (v, r4) =>
                match skipWs r4 with
                | [] => none
                | c3 :: r5 =>
                  if c3 = ',' then pMembers f r5 (acc ++ [(k, v)])
                  else if c3 = '}' then some (.jobj (acc ++ [(k, v)]), r5)
                  else none
            else none
      else none
end

/-- Parse one line with a standard JSON reader: one value, then only
whitespace. -/
def parseLine (l : List Char) : Option Json :=
  match pVal (2 * l.length + 2) l with
  | some (d, r) => if skipWs r = [] then some d else none
  | none => none

/-- The lines written by `save_as_ndjson` (document_generator.py line 311,
logs_generator.py line 279) and by both save paths of
performance_generator.py: one `json.dumps(doc) + '\n'` per document. -/
def ndjsonLines (docs : List Json) : List (List Char) := docs.map fun d => serJson d ++ ['\n']

/-- The byte content of the output sink (the serializer emits pure ASCII,
so characters coincide with UTF-8 bytes). -/
def ndjsonChars (docs : List Json) : List Char := (ndjsonLines docs).flatten

/-- Number of newline-terminated lines of the sink. -/
def newlineCount (s : List Char) : ℕ := s.count '\n'

/-- Field lookup in a JSON object (first match, as Python dicts have unique
keys). -/
def getField (j : Json) (k : List Char) : Option Json :=
  match j with
  | .jobj kvs => (kvs.find? fun kv => kv.1 == k).map (·.2)
  | _ => none

/-- `random.choice` over a list of strings: the draw selects the index. -/
def choiceOf (xs : List (List Char)) (d : ℕ) : List Char := xs.getD (d % xs.length) []

/-- `random.choice` over a list of numbers. -/
def choiceNat (xs : List ℕ) (d : ℕ) : ℕ := xs.getD (d % xs.length) 0

/-- `PerformanceGenerator.generate_small_template` (lines 37-49): the
document embeds `datetime.now().isoformat()` — the wall clock `now`, an
input that is NOT drawn from either seeded random source — alongside six
draws from the `random` stream `r` and one Faker draw `fkr` (the session
id); `randint(a, b)` is modelled as `a + draw % (b - a + 1)`. -/
def generate_small_template (now : List Char) (sentences : List (List Char))
    (r : ℕ → ℕ) (fkr : ℕ → List Char) (rp fp : ℕ) (docId : List Char) : Json :=
  Json.jobj [
    ("id".toList, Json.jstr docId),
    ("timestamp".toList, Json.jstr now),
    ("level".toList, Json.jstr (choiceOf ["INFO".toList, "WARN".toList, "ERROR".toList] (r rp))),
    ("service".toList,
      Json.jstr (choiceOf ["auth".toList, "api".toList, "web".toList, "mobile".toList] (r (rp + 1)))),
    ("message".toList, Json.jstr (choiceOf sentences (r (rp + 2)))),
    ("user_id".toList, Json.jint (1 + r (rp + 3) % 100000)),
    ("session".toList, Json.jstr ((fkr fp).take 8)),
    ("duration".toList, Json.jint (10 + r (rp + 4) % 991)),
    ("status".toList, Json.jint (choiceNat [200, 404, 500] (r (rp + 5))))
  ]

/-- `PerformanceGenerator.generate_batch` for the small tier at the content
level: sequential ids "small_0", "small_1", …, each template consuming six
draws of the `random` stream and one Faker draw. -/
def generate_batch_small (now : List Char) (sentences : List (List Char))
    (r : ℕ → ℕ) (fkr : ℕ → List Char) (count : ℕ) : List Json :=
  (List.range count).map fun i =>
    generate_small_template now sentences r fkr (6 * i) i ("small_".toList ++ renderNat i)

/-- The output lines of a small-tier run of performance_generator (both
save paths write the same lines). -/
def perfSmallRunLines (now : List Char) (sentences : List (List Char))
    (r : ℕ → ℕ) (fkr : ℕ → List Char) (count : ℕ) : List (List Char) :=
  ndjsonLines (generate_batch_small now sentences r fkr count)

/-- The seed handling shared verbatim by all three mains
(document_generator.py line 337, performance_generator.py line 331,
logs_generator.py line 305): `if args.seed:` tests truthiness, so `None`
AND `0` leave both the `random` stream and the Faker stream in their
ambient (unseeded) states; any nonzero seed replaces both by streams that
are a function of the seed alone. -/
def seededSources (seed : Option ℤ) (mtR : ℤ → ℕ → ℕ) (mtF : ℤ → ℕ → List Char)
    (ambR : ℕ → ℕ) (ambF : ℕ → List Char) : (ℕ → ℕ) × (ℕ → List Char) :=
  match seed with
  | none => (ambR, ambF)
  | some s => if s = 0 then (ambR, ambF) else (mtR s, mtF s)

/-- The statistics step both mains run AFTER writing the output file
(document_generator.py lines 352-353, performance_generator.py lines
370-371): the average size divides by `len(documents)`, which raises
ZeroDivisionError when no documents were generated. -/
def main_statistics (docs : List Json) : Except (List Char) (ℕ × ℚ) :=
  let total := (docs.map fun d => (serJson d).length).sum
  if docs.length = 0 then .error ("ZeroDivisionError".toList)
  else .ok (total, (total : ℚ) / docs.length)

/-- Characters that may legally follow a serialized value: the separators
and closers of the enclosing JSON context, or whitespace (in particular the
newline terminating an NDJSON line).  None of them can extend a number
token. -/
def delimOk : List Char → Prop
  | [] => True
  | c :: _ => c = ',' ∨ c = ']' ∨ c = '}' ∨ isWs c = true

/-- A concrete well-formed document exercising every constructor, used to
evaluate the round-trip property on a closed input. -/
def doc0 : Json :=
  Json.jobj [
    ("id".toList, Json.jstr ("small_0".toList)),
    ("value".toList, Json.jfloat ⟨7, 2, by decide, by decide⟩),
    ("count".toList, Json.jint (-42)),
    ("ok".toList, Json.jbool true),
    ("tags".toList, Json.jarr [Json.jnull, Json.jint 3])]


-- ====================  theorems  ====================

/-- Evaluation rule for `Int.log 2` given bracketing powers of two. -/
theorem log_eval (x : ℚ) (e : ℤ) (h0 : 0 < x) (h1 : (2:ℚ) ^ e ≤ x)
    (h2 : x < (2:ℚ) ^ (e + 1)) : Int.log 2 x = e := by
  have hb : 1 < 2 := by norm_num
  have hle : e ≤ Int.log 2 x := (Int.zpow_le_iff_le_log hb h0).mp (by exact_mod_cast h1)
  have hlt : Int.log 2 x < e + 1 := by
    by_contra hc
    push_neg at hc
    have h4 := Int.zpow_log_le_self (b := 2) (r := x) hb h0
    push_cast at h4
    have h3 : ((2:ℚ)) ^ (e + 1) ≤ (2:ℚ) ^ (Int.log 2 x) :=
      zpow_le_zpow_right₀ (by norm_num) hc
    linarith
  omega

/-- `rne` at a value whose fractional part is below 1/2. -/
theorem rne_low (q : ℚ) (n : ℤ) (h1 : ⌊q⌋ = n) (h2 : q - n < 1/2) : rne q = n := by
  rw [rne, h1, if_pos h2]

/-- `rne` at a value whose fractional part is above 1/2. -/
theorem rne_high (q : ℚ) (n : ℤ) (h1 : ⌊q⌋ = n) (h2 : 1/2 < q - n) : rne q = n + 1 := by
  rw [rne, h1, if_neg (by linarith), if_pos h2]

/-- `rne` at an exact tie whose floor is even. -/
theorem rne_tie_even (q : ℚ) (n : ℤ) (h1 : ⌊q⌋ = n) (h2 : q - n = 1/2)
    (h3 : n % 2 = 0) : rne q = n := by
  rw [rne, h1, if_neg (by rw [h2]; norm_num), if_neg (by rw [h2]; norm_num), if_pos h3]

/-- `rne` at an exact tie whose floor is odd. -/
theorem rne_tie_odd (q : ℚ) (n : ℤ) (h1 : ⌊q⌋ = n) (h2 : q - n = 1/2)
    (h3 : n % 2 = 1) : rne q = n + 1 := by
  rw [rne, h1, if_neg (by rw [h2]; norm_num), if_neg (by rw [h2]; norm_num),
    if_neg (by omega)]

/-- Floor evaluation rule. -/
theorem floor_eval (q : ℚ) (n : ℤ) (h1 : (n:ℚ) ≤ q) (h2 : q < n + 1) : ⌊q⌋ = n :=
  Int.floor_eq_iff.mpr ⟨h1, h2⟩

/-- Evaluation rule for `roundFloat` given the binade and the rounded
significand. -/
theorem roundFloat_eval (x v : ℚ) (e n : ℤ) (h0 : 0 < x)
    (h1 : (2:ℚ) ^ e ≤ x) (h2 : x < (2:ℚ) ^ (e + 1))
    (hr : rne (x * 2 ^ (52 - e)) = n) (hv : (n : ℚ) = v * 2 ^ (52 - e)) :
    roundFloat x = v := by
  have hlog := log_eval x e h0 h1 h2
  rw [roundFloat, if_neg (not_le.mpr h0), ulpExp, hlog]
  have hdiv : x / 2 ^ (e - 52) = x * 2 ^ (52 - e) := by
    rw [div_eq_mul_inv, ← zpow_neg, neg_sub]
  rw [hdiv, hr, hv, mul_assoc, ← zpow_add₀ (two_ne_zero), sub_add_sub_cancel',
    sub_self, zpow_zero, mul_one]
/-- Concrete binary64 rounding fact used below. -/
theorem rfNat10 : roundFloat (10:ℚ) = 10 := by
  apply roundFloat_eval _ _ 3 5629499534213120
  · norm_num 
  · norm_num 
  · norm_num 
  · have harg : (10:ℚ) * 2 ^ (52 - (3:ℤ)) = 5629499534213120 := by norm_num 
    rw [harg]
    exact rne_low _ 5629499534213120 (floor_eval _ _ (by norm_num) (by norm_num)) (by norm_num)
  · norm_num

/-- Concrete binary64 rounding fact used below. -/
theorem rfNat50005 : roundFloat (50005:ℚ) = 50005 := by
  apply roundFloat_eval _ _ 15 6872634868367360
  · norm_num 
  · norm_num 
  · norm_num 
  · have harg : (50005:ℚ) * 2 ^ (52 - (15:ℤ)) = 6872634868367360 := by norm_num 
    rw [harg]
    exact rne_low _ 6872634868367360 (floor_eval _ _ (by norm_num) (by norm_num)) (by norm_num)
  · norm_num

/-- Concrete binary64 rounding fact used below. -/
theorem rfProd10_04 : roundFloat ((10:ℚ) * dbl04) = 4 := by
  apply roundFloat_eval _ _ 2 4503599627370496
  · norm_num [dbl04]
  · norm_num [dbl04]
  · norm_num [dbl04]
  · have harg : ((10:ℚ) * dbl04) * 2 ^ (52 - (2:ℤ)) = 18014398509481985/4 := by norm_num [dbl04]
    rw [harg]
    exact rne_low _ 4503599627370496 (floor_eval _ _ (by norm_num) (by norm_num)) (by norm_num)
  · norm_num

/-- Concrete binary64 rounding fact used below. -/
theorem rfProd10_035 : roundFloat ((10:ℚ) * dbl035) = 7/2 := by
  apply roundFloat_eval _ _ 1 7881299347898368
  · norm_num [dbl035]
  · norm_num [dbl035]
  · norm_num [dbl035]
  · have harg : ((10:ℚ) * dbl035) * 2 ^ (52 - (1:ℤ)) = 15762598695796735/2 := by norm_num [dbl035]
    rw [harg]
    have hstep : (7881299347898367:ℤ) + 1 = 7881299347898368 := by norm_num
    rw [← hstep]
    exact rne_tie_odd _ 7881299347898367 (floor_eval _ _ (by norm_num) (by norm_num)) (by norm_num) (by norm_num)
  · norm_num

/-- Concrete binary64 rounding fact used below. -/
theorem rfProd10_02 : roundFloat ((10:ℚ) * dbl02) = 2 := by
  apply roundFloat_eval _ _ 1 4503599627370496
  · norm_num [dbl02]
  · norm_num [dbl02]
  · norm_num [dbl02]
  · have harg : ((10:ℚ) * dbl02) * 2 ^ (52 - (1:ℤ)) = 18014398509481985/4 := by norm_num [dbl02]
    rw [harg]
    exact rne_low _ 4503599627370496 (floor_eval _ _ (by norm_num) (by norm_num)) (by norm_num)
  · norm_num

/-- Concrete binary64 rounding fact used below. -/
theorem rfProd10_005 : roundFloat ((10:ℚ) * dbl005) = 1/2 := by
  apply roundFloat_eval _ _ (-1) 4503599627370496
  · norm_num [dbl005]
  · norm_num [dbl005]
  · norm_num [dbl005]
  · have harg : ((10:ℚ) * dbl005) * 2 ^ (52 - (-1:ℤ)) = 18014398509481985/4 := by norm_num [dbl005]
    rw [harg]
    exact rne_low _ 4503599627370496 (floor_eval _ _ (by norm_num) (by norm_num)) (by norm_num)
  · norm_num

/-- Concrete binary64 rounding fact used below. -/
theorem rfProd50005_04 : roundFloat ((50005:ℚ) * dbl04) = 20002 := by
  apply roundFloat_eval _ _ 14 5498107894693888
  · norm_num [dbl04]
  · norm_num [dbl04]
  · norm_num [dbl04]
  · have harg : ((50005:ℚ) * dbl04) * 2 ^ (52 - (14:ℤ)) = 180161999493329331985/32768 := by norm_num [dbl04]
    rw [harg]
    exact rne_low _ 5498107894693888 (floor_eval _ _ (by norm_num) (by norm_num)) (by norm_num)
  · norm_num

/-- Concrete binary64 rounding fact used below. -/
theorem rfProd50005_035 : roundFloat ((50005:ℚ) * dbl035) = 70007/4 := by
  apply roundFloat_eval _ _ 14 4810844407857152
  · norm_num [dbl035]
  · norm_num [dbl035]
  · norm_num [dbl035]
  · have harg : ((50005:ℚ) * dbl035) * 2 ^ (52 - (14:ℤ)) = 157641749556663146735/32768 := by norm_num [dbl035]
    rw [harg]
    have hstep : (4810844407857151:ℤ) + 1 = 4810844407857152 := by norm_num
    rw [← hstep]
    exact rne_high _ 4810844407857151 (floor_eval _ _ (by norm_num) (by norm_num)) (by norm_num)
  · norm_num

/-- Concrete binary64 rounding fact used below. -/
theorem rfProd50005_02 : roundFloat ((50005:ℚ) * dbl02) = 10001 := by
  apply roundFloat_eval _ _ 13 5498107894693888
  · norm_num [dbl02]
  · norm_num [dbl02]
  · norm_num [dbl02]
  · have harg : ((50005:ℚ) * dbl02) * 2 ^ (52 - (13:ℤ)) = 180161999493329331985/32768 := by norm_num [dbl02]
    rw [harg]
    exact rne_low _ 5498107894693888 (floor_eval _ _ (by norm_num) (by norm_num)) (by norm_num)
  · norm_num

/-- Concrete binary64 rounding fact used below. -/
theorem rfProd50005_005 : roundFloat ((50005:ℚ) * dbl005) = 10001/4 := by
  apply roundFloat_eval _ _ 11 5498107894693888
  · norm_num [dbl005]
  · norm_num [dbl005]
  · norm_num [dbl005]
  · have harg : ((50005:ℚ) * dbl005) * 2 ^ (52 - (11:ℤ)) = 180161999493329331985/32768 := by norm_num [dbl005]
    rw [harg]
    exact rne_low _ 5498107894693888 (floor_eval _ _ (by norm_num) (by norm_num)) (by norm_num)
  · norm_num

/-- Rounding at 0 gives 0 (the float value of `float(0)` and of `0 * w`). -/
theorem roundFloat_zero : roundFloat 0 = 0 := by
  rw [roundFloat, if_pos le_rfl]

/-- `int(0 * w) = 0` for every float `w`. -/
theorem pyIntTimesFloat_zero (w : ℚ) : pyTrunc (pyIntTimesFloat 0 w) = 0 := by
  rw [pyIntTimesFloat]
  norm_num [roundFloat_zero, pyTrunc]

/-- Tier counts of the mixed distribution at `total_count = 10`. -/
theorem counts_at_10 :
    smallCount 10 = 4 ∧ mediumCount 10 = 3 ∧ largeCount 10 = 2 ∧
      docHugeCount 10 = 1 ∧ perfHugeCount 10 = 0 := by
  have hs : smallCount 10 = 4 := by
    rw [smallCount, pyIntTimesFloat]
    push_cast [rfNat10, rfProd10_04]
    rw [pyTrunc, if_pos (by norm_num)]
    exact floor_eval _ _ (by norm_num) (by norm_num)
  have hm : mediumCount 10 = 3 := by
    rw [mediumCount, pyIntTimesFloat]
    push_cast [rfNat10, rfProd10_035]
    rw [pyTrunc, if_pos (by norm_num)]
    exact floor_eval _ _ (by norm_num) (by norm_num)
  have hl : largeCount 10 = 2 := by
    rw [largeCount, pyIntTimesFloat]
    push_cast [rfNat10, rfProd10_02]
    rw [pyTrunc, if_pos (by norm_num)]
    exact floor_eval _ _ (by norm_num) (by norm_num)
  have hh : perfHugeCount 10 = 0 := by
    rw [perfHugeCount, pyIntTimesFloat]
    push_cast [rfNat10, rfProd10_005]
    rw [pyTrunc, if_pos (by norm_num)]
    exact floor_eval _ _ (by norm_num) (by norm_num)
  refine ⟨hs, hm, hl, ?_, hh⟩
  rw [docHugeCount, hs, hm, hl]
  norm_num

/-- Tier counts of the mixed distribution at `total_count = 50005`. -/
theorem counts_at_50005 :
    smallCount 50005 = 20002 ∧ mediumCount 50005 = 17501 ∧
      largeCount 50005 = 10001 ∧ perfHugeCount 50005 = 2500 := by
  have hs : smallCount 50005 = 20002 := by
    rw [smallCount, pyIntTimesFloat]
    push_cast [rfNat50005, rfProd50005_04]
    rw [pyTrunc, if_pos (by norm_num)]
    exact floor_eval _ _ (by norm_num) (by norm_num)
  have hm : mediumCount 50005 = 17501 := by
    rw [mediumCount, pyIntTimesFloat]
    push_cast [rfNat50005, rfProd50005_035]
    rw [pyTrunc, if_pos (by norm_num)]
    exact floor_eval _ _ (by norm_num) (by norm_num)
  have hl : largeCount 50005 = 10001 := by
    rw [largeCount, pyIntTimesFloat]
    push_cast [rfNat50005, rfProd50005_02]
    rw [pyTrunc, if_pos (by norm_num)]
    exact floor_eval _ _ (by norm_num) (by norm_num)
  have hh : perfHugeCount 50005 = 2500 := by
    rw [perfHugeCount, pyIntTimesFloat]
    push_cast [rfNat50005, rfProd50005_005]
    rw [pyTrunc, if_pos (by norm_num)]
    exact floor_eval _ _ (by norm_num) (by norm_num)
  exact ⟨hs, hm, hl, hh⟩

/-- Every tier count is 0 at `total_count = 0`. -/
theorem counts_at_0 :
    smallCount 0 = 0 ∧ mediumCount 0 = 0 ∧ largeCount 0 = 0 ∧
      docHugeCount 0 = 0 ∧ perfHugeCount 0 = 0 := by
  refine ⟨pyIntTimesFloat_zero _, pyIntTimesFloat_zero _, pyIntTimesFloat_zero _, ?_,
    pyIntTimesFloat_zero _⟩
  rw [docHugeCount, smallCount, mediumCount, largeCount]
  simp [pyIntTimesFloat_zero]
/-- Swapping the head with element `j` of the tail permutes the list. -/
theorem set_head_swap_perm (l : List α) (j : ℕ) (y a : α) (h : l[j]? = some y) :
    List.Perm (y :: l.set j a) (a :: l) := by
  have hj : j < l.length := by
    rw [List.getElem?_eq_some] at h
    exact h.1
  have hy : l[j] = y := by
    rw [List.getElem?_eq_some] at h
    obtain ⟨_, hv⟩ := h
    exact hv
  have hl : l = l.take j ++ y :: l.drop (j + 1) := by
    conv_lhs => rw [← List.take_append_drop j l, List.drop_eq_getElem_cons hj, hy]
  have hset : l.set j a = l.take j ++ a :: l.drop (j + 1) := List.set_eq_take_cons_drop a hj
  rw [hset]
  conv_rhs => rw [hl]
  exact (List.Perm.cons y List.perm_middle).trans
    ((List.Perm.swap a y _).trans (List.Perm.cons a List.perm_middle.symm))

/-- A `listSwap` is a permutation of the original list. -/
theorem listSwap_perm (l : List α) (i j : ℕ) : List.Perm (listSwap l i j) l := by
  induction l generalizing i j with
  | nil => rw [listSwap]; rfl
  | cons a l ih =>
    match i, j with
    | 0, 0 =>
      rw [listSwap]
      cases h : (a :: l)[0]? with
      | none => simp at h
      | some x =>
        simp only [List.getElem?_cons_zero, Option.some.injEq] at h
        subst h
        simp
    | 0, j + 1 =>
      rw [listSwap]
      cases h : l[j]? with
      | none => simp [h]
      | some y =>
        simp only [List.getElem?_cons_zero, List.getElem?_cons_succ, h]
        show List.Perm (y :: l.set j a) (a :: l)
        exact set_head_swap_perm l j y a h
    | i + 1, 0 =>
      rw [listSwap]
      cases h : l[i]? with
      | none => simp [h]
      | some x =>
        simp only [List.getElem?_cons_succ, List.getElem?_cons_zero, h]
        show List.Perm (x :: l.set i a) (a :: l)
        exact set_head_swap_perm l i x a h
    | i + 1, j + 1 =>
      rw [listSwap]
      cases h1 : l[i]? with
      | none => simp [h1]
      | some x =>
        cases h2 : l[j]? with
        | none => simp [h1, h2]
        | some y =>
          simp only [List.getElem?_cons_succ, h1, h2]
          show List.Perm (a :: (l.set i y).set j x) (a :: l)
          have hperm := ih i j
          rw [listSwap, h1, h2] at hperm
          exact List.Perm.cons a hperm

/-- The shuffle loop permutes the list. -/
theorem fyGo_perm (σ : ℕ → ℕ) : ∀ (i : ℕ) (l : List α), List.Perm (fyGo σ l i) l := by
  intro i
  induction i with
  | zero => intro l; rw [fyGo]
  | succ i ih =>
    intro l
    rw [fyGo]
    exact (ih _).trans (listSwap_perm _ _ _)

/-- `random.shuffle` permutes the list. -/
theorem fisherYates_perm (σ : ℕ → ℕ) (l : List α) : List.Perm (fisherYates σ l) l :=
  fyGo_perm σ _ l

/-- A `listSwap` leaves indices other than the two swapped ones unchanged. -/
theorem listSwap_getElem?_ne (l : List α) (i j m : ℕ) (h1 : m ≠ i) (h2 : m ≠ j) :
    (listSwap l i j)[m]? = l[m]? := by
  rw [listSwap]
  cases hi : l[i]? with
  | none => rfl
  | some x =>
    cases hj : l[j]? with
    | none => rfl
    | some y =>
      rw [List.getElem?_set_ne (fun he => h2 he.symm), List.getElem?_set_ne (fun he => h1 he.symm)]

/-- The shuffle loop at counter `i` never touches positions above `i`. -/
theorem fyGo_getElem?_high (σ : ℕ → ℕ) :
    ∀ (i : ℕ) (l : List α) (k : ℕ), i < k → (fyGo σ l i)[k]? = l[k]? := by
  intro i
  induction i with
  | zero => intro l k _; rw [fyGo]
  | succ i ih =>
    intro l k hk
    rw [fyGo, ih _ _ (by omega)]
    apply listSwap_getElem?_ne
    · omega
    · have : σ (i + 1) % (i + 2) < i + 2 := Nat.mod_lt _ (by omega)
      omega

/-- After swapping positions `i` and `j` (with `j ≠ i`), position `i` holds
the element that was at position `j`. -/
theorem listSwap_getElem?_fst (l : List α) (i j : ℕ) (hi : i < l.length)
    (hj : j < l.length) (hne : j ≠ i) : (listSwap l i j)[i]? = l[j]? := by
  obtain ⟨x, hx⟩ : ∃ x, l[i]? = some x := ⟨_, List.getElem?_eq_getElem hi⟩
  obtain ⟨y, hy⟩ : ∃ y, l[j]? = some y := ⟨_, List.getElem?_eq_getElem hj⟩
  rw [listSwap, hx, hy, List.getElem?_set_ne hne]
  simp [List.getElem?_set_self, hi]

/-- Under the all-zero draw stream, the shuffle's first step moves the head of
the list to the last position, where it stays: the output ends with the
input's first element. -/
theorem fisherYates_zeros_last (l : List α) (h : 2 ≤ l.length) :
    (fisherYates (fun _ => 0) l)[l.length - 1]? = l[0]? := by
  have hsplit : l.length - 1 = (l.length - 2) + 1 := by omega
  rw [fisherYates, hsplit, fyGo, fyGo_getElem?_high _ _ _ _ (by omega)]
  simp only [Nat.zero_mod]
  rw [← hsplit]
  exact listSwap_getElem?_fst l (l.length - 1) 0 (by omega) (by omega) (by omega)
/-- With a positive batch size the batch loop for one tier produces exactly
the `remaining` sequential ids starting at `startId`. -/
theorem perfBatched_eq_range (t : Tier) (bs : ℕ) (hbs : 0 < bs) :
    ∀ remaining startId, perfBatched t startId remaining bs =
      (List.range remaining).map fun i => (t, startId + i) := by
  intro remaining
  induction remaining using Nat.strong_induction_on with
  | _ remaining ih =>
    intro startId
    rw [perfBatched]
    rcases Nat.eq_zero_or_pos remaining with hr | hr
    · subst hr
      simp [Nat.not_eq_zero_of_lt hbs]
    · rw [if_neg (by omega), if_neg (by omega)]
      simp only []
      have hchunk : 0 < min bs remaining := by
        simp only [Nat.lt_min]
        omega
      have hle : min bs remaining ≤ remaining := Nat.min_le_right _ _
      show List.map (fun i => (t, startId + i)) (List.range (min bs remaining)) ++
          perfBatched t (startId + min bs remaining) (remaining - min bs remaining) bs = _
      rw [ih (remaining - min bs remaining) (by omega) (startId + min bs remaining)]
      have hsplit : remaining = min bs remaining + (remaining - min bs remaining) := by omega
      conv_rhs => rw [hsplit, List.range_add, List.map_append, List.map_map]
      congr 1
      apply List.map_congr_left
      intro i _
      simp only [Function.comp]
      congr 1
      omega

/-- With batch size 0 the batch loop produces nothing (in Python this input
would raise ZeroDivisionError before producing anything). -/
theorem perfBatched_zero_bs (t : Tier) (startId remaining : ℕ) :
    perfBatched t startId remaining 0 = [] := by
  rw [perfBatched, if_pos rfl]

/-- Single-tier document lists carry pairwise distinct ids. -/
theorem docTierDocs_nodup (t : Tier) (count : ℕ) : (docTierDocs t count).Nodup := by
  apply List.Nodup.map _ (List.nodup_range count)
  intro a b hab
  simpa using hab

/-- Four blocks tagged with four pairwise distinct tiers are jointly
duplicate-free as soon as each index list is. -/
theorem blocks_nodup (t1 t2 t3 t4 : Tier) (h12 : t1 ≠ t2) (h13 : t1 ≠ t3) (h14 : t1 ≠ t4)
    (h23 : t2 ≠ t3) (h24 : t2 ≠ t4) (h34 : t3 ≠ t4)
    (l1 l2 l3 l4 : List ℕ) (n1 : l1.Nodup) (n2 : l2.Nodup) (n3 : l3.Nodup) (n4 : l4.Nodup) :
    (l1.map (fun i => ((t1, i) : DocId)) ++ l2.map (fun i => (t2, i))
      ++ l3.map (fun i => (t3, i)) ++ l4.map (fun i => (t4, i))).Nodup := by
  have m1 : (l1.map (fun i => ((t1, i) : DocId))).Nodup :=
    n1.map (by intro a b hab; simpa using hab)
  have m2 : (l2.map (fun i => ((t2, i) : DocId))).Nodup :=
    n2.map (by intro a b hab; simpa using hab)
  have m3 : (l3.map (fun i => ((t3, i) : DocId))).Nodup :=
    n3.map (by intro a b hab; simpa using hab)
  have m4 : (l4.map (fun i => ((t4, i) : DocId))).Nodup :=
    n4.map (by intro a b hab; simpa using hab)
  rw [List.append_assoc, List.append_assoc]
  rw [List.nodup_append]
  refine ⟨m1, ?_, ?_⟩
  · rw [List.nodup_append]
    refine ⟨m2, ?_, ?_⟩
    · rw [List.nodup_append]
      refine ⟨m3, m4, ?_⟩
      intro x hx hy
      simp only [List.mem_map] at hx hy
      obtain ⟨i, _, rfl⟩ := hx
      obtain ⟨j, _, hj⟩ := hy
      exact h34 (congrArg Prod.fst hj).symm
    · intro x hx hy
      simp only [List.mem_map, List.mem_append] at hx hy
      obtain ⟨i, _, rfl⟩ := hx
      rcases hy with ⟨j, _, hj⟩ | ⟨j, _, hj⟩
      · exact h23 (congrArg Prod.fst hj).symm
      · exact h24 (congrArg Prod.fst hj).symm
  · intro x hx hy
    simp only [List.mem_map, List.mem_append] at hx hy
    obtain ⟨i, _, rfl⟩ := hx
    rcases hy with ⟨j, _, hj⟩ | ⟨j, _, hj⟩ | ⟨j, _, hj⟩
    · exact h12 (congrArg Prod.fst hj).symm
    · exact h13 (congrArg Prod.fst hj).symm
    · exact h14 (congrArg Prod.fst hj).symm

/-- The pre-shuffle mixed corpus of document_generator has distinct ids. -/
theorem docMixedBase_nodup (total : ℕ) : (docMixedBase total).Nodup := by
  rw [docMixedBase]
  apply blocks_nodup <;> simp [intRange, List.nodup_range]

/-- The pre-shuffle mixed corpus of performance_generator has distinct ids. -/
theorem perfMixedBase_nodup (total bs : ℕ) : (perfMixedBase total bs).Nodup := by
  rw [perfMixedBase]
  rcases Nat.eq_zero_or_pos bs with hbs | hbs
  · subst hbs
    simp [perfBatched_zero_bs]
  · simp only [perfBatched_eq_range _ _ hbs]
    have hmm : ∀ (t : Tier) (n s : ℕ),
        (List.range n).map (fun i => ((t, s + i) : DocId)) =
          ((List.range n).map (fun i => s + i)).map (fun i => ((t, i) : DocId)) := by
      intro t n s
      rw [List.map_map]
      rfl
    rw [hmm Tier.small, hmm Tier.medium, hmm Tier.large, hmm Tier.huge]
    apply blocks_nodup <;> first
      | exact List.Nodup.map (fun a b hab => by omega) (List.nodup_range _)
      | decide
/-- Tier count of a block whose entries all carry tag `t`. -/
theorem tierCount_block_eq (t : Tier) (f : ℕ → ℕ) (l : List ℕ) :
    tierCount (l.map fun i => (t, f i)) t = l.length := by
  rw [tierCount, List.countP_map]
  have hfn : ((fun (d : DocId) => d.1 == t) ∘ fun i => (t, f i)) = fun _ => true := by
    funext i
    simp
  rw [hfn, List.countP_true]

/-- Tier count of a block tagged with a different tier. -/
theorem tierCount_block_ne (t t' : Tier) (hne : t' ≠ t) (f : ℕ → ℕ) (l : List ℕ) :
    tierCount (l.map fun i => (t', f i)) t = 0 := by
  rw [tierCount, List.countP_map]
  have hfn : ((fun (d : DocId) => d.1 == t) ∘ fun i => (t', f i)) = fun _ => false := by
    funext i
    simp [hne]
  rw [hfn, List.countP_false]
  rfl

/-- Tier counts add over concatenation. -/
theorem tierCount_append (l1 l2 : List DocId) (t : Tier) :
    tierCount (l1 ++ l2) t = tierCount l1 t + tierCount l2 t :=
  List.countP_append _ _ _

/-- Tier counts are invariant under permutation (in particular under the
shuffle). -/
theorem tierCount_perm (l1 l2 : List DocId) (t : Tier) (h : List.Perm l1 l2) :
    tierCount l1 t = tierCount l2 t :=
  h.countP_eq _

/-- The mixed corpus of document_generator at `total_count = 10` before the
shuffle: blocks of 4, 3, 2 and 1 documents. -/
theorem docMixedBase_at_10 : docMixedBase 10 =
    (List.range 4).map (fun i => ((Tier.small, i) : DocId))
      ++ (List.range 3).map (fun i => (Tier.medium, i))
      ++ (List.range 2).map (fun i => (Tier.large, i))
      ++ (List.range 1).map (fun i => (Tier.huge, i)) := by
  obtain ⟨hs, hm, hl, hh, _⟩ := counts_at_10
  rw [docMixedBase, hs, hm, hl, hh]
  rfl

/-- C5: requesting 10 documents under the mixed weight table
{0.4, 0.35, 0.2, 0.05} of `DocumentGenerator.generate_mixed_documents`
yields exactly 4 small, 3 medium, 2 large and 1 huge document (the last tier
absorbing the remainder `10 - int(10*0.4) - int(10*0.35) - int(10*0.2)`),
10 documents in total, where each `int(10 * w)` is computed by binary64
float multiplication followed by truncation exactly as the code does. -/
theorem c5_distribution_rounding_at_10 :
    ∀ σ : ℕ → ℕ,
      tierCount (generate_mixed_documents σ 10) Tier.small = 4 ∧
      tierCount (generate_mixed_documents σ 10) Tier.medium = 3 ∧
      tierCount (generate_mixed_documents σ 10) Tier.large = 2 ∧
      tierCount (generate_mixed_documents σ 10) Tier.huge = 1 ∧
      (generate_mixed_documents σ 10).length = 10 := by
  intro σ
  have hperm := fisherYates_perm σ (docMixedBase 10)
  have hcount : ∀ t, tierCount (generate_mixed_documents σ 10) t
      = tierCount (docMixedBase 10) t :=
    fun t => tierCount_perm _ _ t hperm
  refine ⟨?_, ?_, ?_, ?_, ?_⟩ <;>
    first
    | (rw [hcount, docMixedBase_at_10, tierCount_append, tierCount_append, tierCount_append,
         tierCount_block_eq, tierCount_block_ne _ _ (by decide),
         tierCount_block_ne _ _ (by decide), tierCount_block_ne _ _ (by decide)]
       simp)
    | (rw [show (generate_mixed_documents σ 10).length = (docMixedBase 10).length
         from hperm.length_eq, docMixedBase_at_10]
       simp)
/-- The mixed corpus of performance_generator at `total_count = 10`,
batch size 1000, before the shuffle: blocks of 4, 3, 2 and 0 documents,
9 in total — one fewer than requested. -/
theorem perfMixedBase_at_10 : perfMixedBase 10 1000 =
    (List.range 4).map (fun i => ((Tier.small, 0 + i) : DocId))
      ++ (List.range 3).map (fun i => (Tier.medium, 4 + i))
      ++ (List.range 2).map (fun i => (Tier.large, 7 + i))
      ++ (List.range 0).map (fun i => (Tier.huge, 9 + i)) := by
  obtain ⟨hs, hm, hl, _, hph⟩ := counts_at_10
  rw [perfMixedBase]
  simp only [hs, hm, hl, hph, perfBatched_eq_range _ 1000 (by norm_num)]
  simp only [show ((4:ℤ)).toNat = 4 from rfl, show ((3:ℤ)).toNat = 3 from rfl,
    show ((2:ℤ)).toNat = 2 from rfl, show ((0:ℤ)).toNat = 0 from rfl]

/-- C1 (failing side): `PerformanceGenerator.generate_performance_dataset`
does not conserve the requested total.  At `total_count = 10` (mixed, batch
size 1000) it computes the last tier's quota as `int(10 * 0.05) = 0` instead
of the remainder 1, and generates 9 documents, not 10; document_generator's
allocator, by contrast, assigns the remainder 1 to the last tier.  This
evaluates the code at the failing input of the claim. -/
theorem c1_perf_mixed_drops_documents :
    (∀ σ : ℕ → ℕ, (generate_performance_dataset Sel.mixed 10 1000 σ).length = 9) ∧
      perfHugeCount 10 = 0 ∧ docHugeCount 10 = 1 ∧ (9 : ℕ) ≠ 10 := by
  obtain ⟨_, _, _, hh, hph⟩ := counts_at_10
  refine ⟨?_, hph, hh, by norm_num⟩
  intro σ
  show (fisherYates σ (perfMixedBase 10 1000)).length = 9
  rw [(fisherYates_perm σ _).length_eq, perfMixedBase_at_10]
  simp

/-- C7: for every tier selector (single-tier or mixed), every count, every
batch size, and every draw stream, the documents produced in one run of
either generator carry pairwise distinct `(tier, index)` identities — hence
pairwise distinct id strings "{tier}_{index}". -/
theorem c7_ids_pairwise_distinct :
    ∀ (sel : Sel) (count bs : ℕ) (σ : ℕ → ℕ),
      (generate_documents sel count σ).Nodup ∧
        (generate_performance_dataset sel count bs σ).Nodup := by
  intro sel count bs σ
  constructor
  · cases sel with
    | tier t => exact docTierDocs_nodup t count
    | mixed =>
      exact ((fisherYates_perm σ _).nodup_iff).mpr (docMixedBase_nodup count)
  · cases sel with
    | tier t =>
      show (perfBatched t 0 count bs).Nodup
      rcases Nat.eq_zero_or_pos bs with h | h
      · subst h
        rw [perfBatched_zero_bs]
        exact List.nodup_nil
      · rw [perfBatched_eq_range t bs h]
        exact List.Nodup.map (fun a b hab => by simpa using hab) (List.nodup_range _)
    | mixed =>
      exact ((fisherYates_perm σ _).nodup_iff).mpr (perfMixedBase_nodup count bs)

/-- The streaming writer flushes exactly `⌊n / chunk⌋` times over `n`
documents. -/
theorem streamFlush_eq (c : ℕ) : ∀ n, streamFlushCount n c = n / c := by
  intro n
  induction n with
  | zero => simp [streamFlushCount]
  | succ n ih =>
    have hsplit : streamFlushCount (n + 1) c
        = streamFlushCount n c + (if (n + 1) % c == 0 then 1 else 0) := by
      rw [streamFlushCount, List.range_succ, List.filter_append, List.length_append,
        streamFlushCount]
      congr 1
      rw [List.filter_cons, List.filter_nil]
      by_cases hmod : ((n + 1) % c == 0) = true
      · rw [if_pos hmod, if_pos hmod]
        rfl
      · rw [if_neg hmod, if_neg hmod]
        rfl
    rw [hsplit, ih, Nat.succ_div]
    by_cases hdvd : c ∣ n + 1
    · rw [if_pos hdvd, if_pos (by simpa [Nat.dvd_iff_mod_eq_zero] using hdvd)]
    · rw [if_neg hdvd, if_neg (by simpa [Nat.dvd_iff_mod_eq_zero] using hdvd)]

/-- C6 counterexample: writing 600 documents with request batch size 500,
the streaming save performs 0 flushes, strictly fewer than the at-least-one
flush (`⌊600 / 500⌋ = 1`) that the claimed batch-size-linked interval
requires: `save_as_ndjson_streaming` is called without `chunk_size`, so its
default 1000 governs flushing, not the request's `batch_size`. -/
theorem c6_counterexample : mainStreamFlushCount 500 600 < 600 / 500 := by
  rw [mainStreamFlushCount, streamFlush_eq 1000]
  norm_num

/-- C6 as amended: the streaming writer of performance_generator flushes
every 1000 documents — the hard-coded default `chunk_size` of
`save_as_ndjson_streaming`, which main never overrides with the request's
batch size — so writing `n` documents performs exactly `⌊n / 1000⌋` flush
calls, whatever batch size the request carries. -/
theorem c6_amended_flush_interval :
    ∀ batchSize n : ℕ, mainStreamFlushCount batchSize n = n / 1000 := by
  intro _ n
  rw [mainStreamFlushCount, streamFlush_eq 1000]

/-- C9: a run whose document count exceeds 50,000 takes the streaming save
path even without the `--streaming` flag; at or below 50,000 without the
flag, the plain save path is taken. -/
theorem c9_streaming_threshold :
    ∀ (flag : Bool) (n : ℕ),
      (50000 < n → perfUseStreaming flag n = true) ∧
        (n ≤ 50000 → perfUseStreaming false n = false) := by
  intro flag n
  constructor
  · intro h
    simp [perfUseStreaming, h]
  · intro h
    simp [perfUseStreaming]
    omega

/-- Witness for C9 at the concrete boundary counts 50001 and 50000. -/
theorem c9_streaming_threshold_witness :
    perfUseStreaming false 50001 = true ∧ perfUseStreaming false 50000 = false :=
  ⟨(c9_streaming_threshold false 50001).1 (by norm_num),
    (c9_streaming_threshold false 50000).2 (by norm_num)⟩
/-- The mixed corpus of performance_generator at `total_count = 50005`,
batch size 1000, before the shuffle: tier-sequential blocks of 20002, 17501,
10001 and 2500 documents (50004 documents, above the streaming threshold). -/
theorem perfMixedBase_at_50005 : perfMixedBase 50005 1000 =
    (List.range 20002).map (fun i => ((Tier.small, 0 + i) : DocId))
      ++ (List.range 17501).map (fun i => (Tier.medium, 20002 + i))
      ++ (List.range 10001).map (fun i => (Tier.large, 37503 + i))
      ++ (List.range 2500).map (fun i => (Tier.huge, 47504 + i)) := by
  obtain ⟨hs, hm, hl, hh⟩ := counts_at_50005
  rw [perfMixedBase]
  simp only [hs, hm, hl, hh, perfBatched_eq_range _ 1000 (by norm_num)]
  simp only [show ((20002:ℤ)).toNat = 20002 from rfl, show ((17501:ℤ)).toNat = 17501 from rfl,
    show ((10001:ℤ)).toNat = 10001 from rfl, show ((2500:ℤ)).toNat = 2500 from rfl]

/-- C4 counterexample: a mixed run of 50005 requested documents (50004
generated, above the 50,000 streaming threshold, so the streaming save path
is taken automatically) does NOT emit its documents in tier-sequential
order: under the all-zero draw stream the shuffle — which the code runs
unconditionally for mixed corpora before any save-path decision — moves the
first small document to the last position. -/
theorem c4_counterexample :
    perfUseStreaming false ((perfMainEmit (fun _ => 0) false 50005 1000).length) = true ∧
      perfMainEmit (fun _ => 0) false 50005 1000 ≠ perfMixedBase 50005 1000 := by
  have hbase := perfMixedBase_at_50005
  have hlen : (perfMixedBase 50005 1000).length = 50004 := by
    rw [hbase]
    simp
  have hplen : (perfMainEmit (fun _ => 0) false 50005 1000).length = 50004 := by
    show (fisherYates (fun _ => 0) (perfMixedBase 50005 1000)).length = 50004
    rw [(fisherYates_perm _ _).length_eq, hlen]
  constructor
  · rw [hplen]
    rfl
  · intro heq
    have h1 : (perfMainEmit (fun _ => 0) false 50005 1000)[50003]?
        = (perfMixedBase 50005 1000)[0]? := by
      show (fisherYates (fun _ => 0) (perfMixedBase 50005 1000))[50003]? = _
      have hz := fisherYates_zeros_last (perfMixedBase 50005 1000) (by rw [hlen]; norm_num)
      rw [hlen] at hz
      simpa using hz
    have h2 : (perfMixedBase 50005 1000)[0]? = some (Tier.small, 0) := by
      rw [hbase]
      simp [List.getElem?_append, List.getElem_append]
    have h3 : (perfMixedBase 50005 1000)[50003]? = some (Tier.huge, 50003) := by
      rw [hbase]
      simp [List.getElem?_append, List.getElem_append]
    rw [heq, h2, h3] at h1
    simp at h1

/-- C4 as amended: the full-corpus shuffle is NOT skipped in streaming mode —
`generate_performance_dataset` shuffles every mixed corpus before the save
path is even chosen, and both save paths write the documents in list order,
so the emitted order is the shuffled order (a permutation of the
tier-sequential corpus), not the tier-sequential order; the streaming flag
and threshold affect only how the already-materialized list is written. -/
theorem c4_amended_shuffle_always_runs :
    ∀ (σ : ℕ → ℕ) (flag : Bool) (total bs : ℕ),
      perfMainEmit σ flag total bs = fisherYates σ (perfMixedBase total bs) ∧
        List.Perm (perfMainEmit σ flag total bs) (perfMixedBase total bs) := by
  intro σ flag total bs
  exact ⟨rfl, fisherYates_perm σ _⟩
/-- Scalar-value roundtrip for character construction. -/
theorem charOfNat_toNat (n : ℕ) (hv : n.isValidChar) : (Char.ofNat n).toNat = n := by
  rw [Char.ofNat, dif_pos hv]
  simp [Char.ofNatAux, Char.toNat, UInt32.toNat, UInt32.ofNat']

/-- Validity of every character's scalar value. -/
theorem char_valid (c : Char) : c.toNat < 55296 ∨ (57343 < c.toNat ∧ c.toNat < 1114112) :=
  c.valid

/-- Digit characters decode to their value. -/
theorem digitVal_ofNat (d : ℕ) (h : d ≤ 9) : digitVal (Char.ofNat (48 + d)) = d := by
  rw [digitVal, charOfNat_toNat _ (Or.inl (by omega))]
  omega

/-- Digit characters are digits. -/
theorem isDigitC_ofNat (d : ℕ) (h : d ≤ 9) : isDigitC (Char.ofNat (48 + d)) = true := by
  rw [isDigitC, charOfNat_toNat _ (Or.inl (by omega))]
  simp
  omega

/-- Value of a digit string extended by one digit. -/
theorem digitsToNat_append_digit (ds : List Char) (c : Char) :
    digitsToNat (ds ++ [c]) = 10 * digitsToNat ds + digitVal c := by
  rw [digitsToNat, digitsToNat, List.foldl_append]
  simp
  ring

/-- The digits of `n` are decimal digits. -/
theorem natDigitsAux_digits : ∀ fuel n, n < fuel →
    ∀ c ∈ natDigitsAux fuel n, isDigitC c = true := by
  intro fuel
  induction fuel with
  | zero => omega
  | succ fuel ih =>
    intro n hn c hc
    rw [natDigitsAux] at hc
    by_cases h10 : n < 10
    · rw [if_pos h10] at hc
      simp at hc
      subst hc
      exact isDigitC_ofNat n (by omega)
    · rw [if_neg h10] at hc
      rcases List.mem_append.mp hc with hc | hc
      · exact ih (n / 10) (by omega) c hc
      · simp at hc
        subst hc
        exact isDigitC_ofNat (n % 10) (by omega)

/-- The digit string of `n` is nonempty. -/
theorem natDigitsAux_ne_nil : ∀ fuel n, n < fuel → natDigitsAux fuel n ≠ [] := by
  intro fuel
  induction fuel with
  | zero => omega
  | succ fuel _ =>
    intro n hn
    rw [natDigitsAux]
    by_cases h10 : n < 10
    · simp [h10]
    · rw [if_neg h10]
      simp

/-- The digit string of `n` has value `n`. -/
theorem natDigitsAux_val : ∀ fuel n, n < fuel → digitsToNat (natDigitsAux fuel n) = n := by
  intro fuel
  induction fuel with
  | zero => omega
  | succ fuel ih =>
    intro n hn
    rw [natDigitsAux]
    by_cases h10 : n < 10
    · rw [if_pos h10]
      show digitsToNat ([] ++ [Char.ofNat (48 + n)]) = n
      rw [digitsToNat_append_digit, digitVal_ofNat n (by omega)]
      simp [digitsToNat]
    · rw [if_neg h10, digitsToNat_append_digit, ih (n / 10) (by omega),
        digitVal_ofNat (n % 10) (by omega)]
      omega

/-- The digit string of `n < 10^k` has at most `k` digits (`k ≥ 1`). -/
theorem natDigitsAux_len : ∀ fuel n k, n < fuel → 1 ≤ k → n < 10 ^ k →
    (natDigitsAux fuel n).length ≤ k := by
  intro fuel
  induction fuel with
  | zero => omega
  | succ fuel ih =>
    intro n k hn hk hnk
    rw [natDigitsAux]
    by_cases h10 : n < 10
    · rw [if_pos h10]
      simpa using hk
    · rw [if_neg h10, List.length_append]
      have hk2 : 2 ≤ k := by
        by_contra hc
        push_neg at hc
        interval_cases k
        omega
      have : n / 10 < 10 ^ (k - 1) := by
        have h1 : 10 ^ k = 10 ^ (k - 1) * 10 := by
          conv_lhs => rw [show k = (k - 1) + 1 by omega]
          ring
        rw [h1] at hnk
        omega
      have := ih (n / 10) (k - 1) (by omega) (by omega) this
      simp
      omega

/-- Rendered naturals: nonempty all-digit strings with the right value. -/
theorem renderNat_spec (n : ℕ) :
    digitsToNat (renderNat n) = n ∧ renderNat n ≠ [] ∧
      ∀ c ∈ renderNat n, isDigitC c = true :=
  ⟨natDigitsAux_val _ n (by omega), natDigitsAux_ne_nil _ n (by omega),
    natDigitsAux_digits _ n (by omega)⟩

/-- Splitting a run of `p`-true characters before a `p`-false boundary. -/
theorem span_append (p : Char → Bool) (a b : List Char)
    (ha : ∀ c ∈ a, p c = true) (hb : ∀ c, b.head? = some c → p c = false) :
    (a ++ b).takeWhile p = a ∧ (a ++ b).dropWhile p = b := by
  induction a with
  | nil =>
    simp only [List.nil_append]
    cases b with
    | nil => simp
    | cons c r =>
      have := hb c rfl
      constructor
      · rw [List.takeWhile_cons, this]
        simp
      · rw [List.dropWhile_cons, this]
        simp
  | cons x a iha =>
    have hx := ha x (by simp)
    have hrest := iha (fun c hc => ha c (by simp [hc]))
    constructor
    · rw [List.cons_append, List.takeWhile_cons, hx]
      simp [hrest.1]
    · rw [List.cons_append, List.dropWhile_cons, hx]
      simp [hrest.2]

/-- Leading zeros do not change the value of a digit string. -/
theorem digitsToNat_replicate_zero (m : ℕ) (ds : List Char) :
    digitsToNat (List.replicate m '0' ++ ds) = digitsToNat ds := by
  induction m with
  | zero => simp
  | succ m ih =>
    rw [List.replicate_succ, List.cons_append]
    show List.foldl _ (0 * 10 + digitVal '0') _ = _
    have : digitVal '0' = 0 := by decide
    rw [this]
    simpa [digitsToNat] using ih
/-- Power-of-two detection is sound. -/
theorem isPow2Aux_spec : ∀ fuel n k, isPow2Aux fuel n = some k → n = 2 ^ k := by
  intro fuel
  induction fuel with
  | zero => intro n k h; rw [isPow2Aux] at h; exact absurd h (by simp)
  | succ fuel ih =>
    intro n k h
    rw [isPow2Aux] at h
    by_cases h1 : n = 1
    · rw [if_pos h1] at h
      simp at h
      subst h
      simpa using h1
    · rw [if_neg h1] at h
      by_cases h2 : n % 2 = 0 ∧ n ≠ 0
      · rw [if_pos h2] at h
        simp at h
        obtain ⟨k2, hk2, rfl⟩ := h
        have := ih (n / 2) k2 hk2
        have hpow : n = 2 ^ (k2 + 1) := by
          rw [pow_succ]
          omega
        exact hpow
      · rw [if_neg h2] at h
        exact absurd h (by simp)

/-- `pow2Exp` is sound. -/
theorem pow2Exp_spec (n k : ℕ) (h : pow2Exp n = some k) : n = 2 ^ k :=
  isPow2Aux_spec n n k h

/-- The head of a legal continuation, explicitly. -/
theorem delimOk_chars (s : List Char) (hd : delimOk s) :
    ∀ c r, s = c :: r →
      c = ',' ∨ c = ']' ∨ c = '}' ∨ c = ' ' ∨ c = '\t' ∨ c = '\n' ∨ c = '\r' := by
  intro c r h
  subst h
  rw [delimOk] at hd
  rcases hd with h | h | h | h
  · tauto
  · tauto
  · tauto
  · rw [isWs] at h
    simp only [Bool.or_eq_true, decide_eq_true_eq] at h
    tauto

/-- Characters allowed after a value are not digits, dots or sign letters. -/
theorem delimOk_not_digit (s : List Char) (hd : delimOk s) :
    (∀ c, s.head? = some c → isDigitC c = false) ∧
      (∀ c r, s = c :: r → c ≠ '.' ∧ c ≠ '-') := by
  cases s with
  | nil => exact ⟨by intro c h; simp at h, by intro c r h; simp at h⟩
  | cons c r =>
    have hch := delimOk_chars _ hd c r rfl
    constructor
    · intro c2 h
      simp at h
      subst h
      rcases hch with h | h | h | h | h | h | h <;> (subst h; decide)
    · intro c2 r2 h
      simp at h
      obtain ⟨rfl, _⟩ := h
      rcases hch with h | h | h | h | h | h | h <;> (subst h; exact ⟨by decide, by decide⟩)

/-- Reading back a rendered natural number as a token prefix. -/
theorem pNumAbs_renderNat (n : ℕ) (rest : List Char) (hd : delimOk rest) :
    pNumAbs (renderNat n ++ rest) = some (.jint (n : ℤ), rest) := by
  obtain ⟨hval, hne, hdig⟩ := renderNat_spec n
  obtain ⟨hspan1, hspan2⟩ := span_append isDigitC (renderNat n) rest hdig
    (fun c hc => (delimOk_not_digit rest hd).1 c hc)
  rw [pNumAbs]
  simp only [hspan1, hspan2]
  rw [if_neg (by simpa [List.isEmpty_iff] using hne)]
  have hnd : ¬ rest.head? = some '.' := by
    cases hrest : rest with
    | nil => simp
    | cons c r2 =>
      have hdot := ((delimOk_not_digit rest hd).2 c r2 hrest).1
      simp [hdot]
  rw [if_neg hnd, hval]
/-- Head decomposition of a rendered natural: a digit. -/
theorem renderNat_head (n : ℕ) : ∃ c t, renderNat n = c :: t ∧ isDigitC c = true := by
  obtain ⟨_, hne, hdig⟩ := renderNat_spec n
  cases h : renderNat n with
  | nil => exact absurd h hne
  | cons c t => exact ⟨c, t, rfl, hdig c (by rw [h]; simp)⟩

/-- Reading back a decimal rendering of a nonnegative dyadic rational. -/
theorem pNumAbs_renderFloatAbs (num den k : ℕ) (hk : pow2Exp den = some k)
    (rest : List Char) (hd : delimOk rest) :
    pNumAbs (renderFloatAbs num den ++ rest) = some (.jfloat ((num : ℚ) / den), rest) := by
  have hden : den = 2 ^ k := pow2Exp_spec den k hk
  simp only [renderFloatAbs, hk]
  by_cases hk0 : k = 0
  · subst hk0
    rw [if_pos rfl]
    obtain ⟨hval, hne, hdig⟩ := renderNat_spec num
    have hin : renderNat num ++ ['.', '0'] ++ rest = renderNat num ++ ('.' :: '0' :: rest) := by
      simp
    rw [hin, pNumAbs]
    obtain ⟨hspan1, hspan2⟩ := span_append isDigitC (renderNat num) ('.' :: '0' :: rest) hdig
      (by intro c hc; simp at hc; subst hc; decide)
    simp only [hspan1, hspan2]
    rw [if_neg (by simpa [List.isEmpty_iff] using hne)]
    rw [if_pos (show (('.' :: '0' :: rest).head? = some '.') from rfl)]
    simp only [List.tail_cons]
    obtain ⟨hsp1, hsp2⟩ := span_append isDigitC ['0'] rest
      (by intro c hc; simp at hc; subst hc; decide)
      (fun c hc => (delimOk_not_digit rest hd).1 c hc)
    simp only [List.singleton_append] at hsp1 hsp2
    simp only [hsp1, hsp2]
    rw [if_neg (by simp [List.isEmpty_iff])]
    rw [hval]
    have h0 : digitsToNat ['0'] = 0 := by decide
    rw [h0, hden]
    norm_num
  · rw [if_neg hk0]
    set ip0 := num * 5 ^ k / 10 ^ k with hip0
    set fr := num * 5 ^ k % 10 ^ k with hfr
    obtain ⟨hval, hne, hdig⟩ := renderNat_spec ip0
    have hfrlt : fr < 10 ^ k := Nat.mod_lt _ (by positivity)
    have hfplen : (padZeros k (renderNat fr)).length = k := by
      rw [padZeros, List.length_append, List.length_replicate]
      have := natDigitsAux_len (fr + 1) fr k (by omega) (by omega) hfrlt
      rw [renderNat] at *
      omega
    have hfpdig : ∀ c ∈ padZeros k (renderNat fr), isDigitC c = true := by
      intro c hc
      rw [padZeros] at hc
      rcases List.mem_append.mp hc with hc | hc
      · have := List.eq_of_mem_replicate hc
        subst this
        decide
      · exact (renderNat_spec fr).2.2 c hc
    have hfpval : digitsToNat (padZeros k (renderNat fr)) = fr := by
      rw [padZeros, digitsToNat_replicate_zero, (renderNat_spec fr).1]
    have hin : (renderNat ip0 ++ '.' :: padZeros k (renderNat fr)) ++ rest
        = renderNat ip0 ++ ('.' :: (padZeros k (renderNat fr) ++ rest)) := by
      simp
    rw [hin, pNumAbs]
    obtain ⟨hspan1, hspan2⟩ := span_append isDigitC (renderNat ip0)
      ('.' :: (padZeros k (renderNat fr) ++ rest)) hdig
      (by intro c hc; simp at hc; subst hc; decide)
    simp only [hspan1, hspan2]
    rw [if_neg (by simpa [List.isEmpty_iff] using hne)]
    rw [if_pos (show (('.' :: (padZeros k (renderNat fr) ++ rest)).head? = some '.') from rfl)]
    simp only [List.tail_cons]
    obtain ⟨hsp1, hsp2⟩ := span_append isDigitC (padZeros k (renderNat fr)) rest hfpdig
      (fun c hc => (delimOk_not_digit rest hd).1 c hc)
    simp only [hsp1, hsp2]
    rw [if_neg (by
      simp [List.isEmpty_iff]
      intro hnil
      rw [hnil] at hfplen
      simp at hfplen
      omega)]
    rw [hval, hfpval, hfplen]
    congr 2
    have hdm : (ip0 * 10 ^ k + fr : ℕ) = num * 5 ^ k := by
      have h := Nat.div_add_mod (num * 5 ^ k) (10 ^ k)
      calc ip0 * 10 ^ k + fr = 10 ^ k * ip0 + fr := by ring
        _ = num * 5 ^ k := by rw [hip0, hfr]; exact h
    have h10 : ((10 : ℚ)) ^ k = 2 ^ k * 5 ^ k := by
      rw [← mul_pow]
      norm_num
    have hcast : ((ip0 : ℚ)) * 10 ^ k + (fr : ℚ) = (num : ℚ) * 5 ^ k := by
      exact_mod_cast hdm
    rw [hcast, hden]
    push_cast
    rw [h10]
    have h5 : ((5 : ℚ)) ^ k ≠ 0 := by positivity
    have h2 : ((2 : ℚ)) ^ k ≠ 0 := by positivity
    field_simp
    ring
/-- Reading back a serialized Python int. -/
theorem pNum_renderInt (n : ℤ) (rest : List Char) (hd : delimOk rest) :
    pNum (renderInt n ++ rest) = some (.jint n, rest) := by
  rw [renderInt]
  by_cases hneg : n < 0
  · rw [if_pos hneg]
    simp only [List.cons_append, pNum, if_true]
    rw [pNumAbs_renderNat (-n).toNat rest hd]
    show some (jneg (Json.jint ((-n).toNat : ℤ)), rest) = some (Json.jint n, rest)
    have hj : jneg (Json.jint ((-n).toNat : ℤ)) = Json.jint n := by
      show Json.jint (-((-n).toNat : ℤ)) = Json.jint n
      congr 1
      omega
    rw [hj]
  · rw [if_neg hneg]
    obtain ⟨c, t, hct, hdigc⟩ := renderNat_head n.toNat
    rw [hct]
    simp only [List.cons_append, pNum]
    rw [if_neg (by
      intro hc
      subst hc
      exact absurd hdigc (by decide))]
    rw [← List.cons_append, ← hct, pNumAbs_renderNat n.toNat rest hd]
    rw [show ((n.toNat : ℤ)) = n by omega]

/-- Reading back a serialized Python float. -/
theorem pNum_serFloat (q : ℚ) (hwf : (pow2Exp q.den).isSome = true) (rest : List Char)
    (hd : delimOk rest) : pNum (serFloat q ++ rest) = some (.jfloat q, rest) := by
  obtain ⟨k, hk⟩ := Option.isSome_iff_exists.mp hwf
  rw [serFloat]
  by_cases hneg : q < 0
  · rw [if_pos hneg]
    have hden : (-q).den = q.den := Rat.neg_den q
    simp only [List.cons_append, pNum, if_true]
    rw [hden, pNumAbs_renderFloatAbs (-q).num.toNat q.den k hk rest hd]
    have h1 : (((-q).num.toNat : ℚ)) = (((-q).num : ℚ)) := by
      have h0 : 0 ≤ (-q).num := Rat.num_nonneg.mpr (by linarith)
      exact_mod_cast Int.toNat_of_nonneg h0
    have h2 : (((-q).num : ℚ)) / ((q.den : ℚ)) = -q := by
      rw [← hden]
      exact_mod_cast Rat.num_div_den (-q)
    show some (jneg (Json.jfloat (((-q).num.toNat : ℚ) / ((q.den : ℚ)))), rest)
      = some (Json.jfloat q, rest)
    have hj : jneg (Json.jfloat (((-q).num.toNat : ℚ) / ((q.den : ℚ)))) = Json.jfloat q := by
      show Json.jfloat (-(((-q).num.toNat : ℚ) / ((q.den : ℚ)))) = Json.jfloat q
      rw [h1, h2, neg_neg]
    rw [hj]
  · rw [if_neg hneg]
    have hhead : ∃ c t, renderFloatAbs q.num.toNat q.den = c :: t ∧ isDigitC c = true := by
      rw [renderFloatAbs, hk]
      by_cases hk0 : k = 0
      · subst hk0
        simp only [if_pos rfl]
        obtain ⟨c2, t2, hct2, hd2⟩ := renderNat_head q.num.toNat
        exact ⟨c2, t2 ++ ['.', '0'], by rw [hct2]; simp, hd2⟩
      · simp only [if_neg hk0]
        obtain ⟨c2, t2, hct2, hd2⟩ := renderNat_head (q.num.toNat * 5 ^ k / 10 ^ k)
        exact ⟨c2, t2 ++ '.' :: padZeros k (renderNat (q.num.toNat * 5 ^ k % 10 ^ k)),
          by rw [hct2]; simp, hd2⟩
    obtain ⟨c2, t2, hct2, hd2⟩ := hhead
    rw [hct2]
    simp only [List.cons_append, pNum]
    rw [if_neg (by
      intro hc
      subst hc
      exact absurd hd2 (by decide))]
    rw [← List.cons_append, ← hct2, pNumAbs_renderFloatAbs q.num.toNat q.den k hk rest hd]
    have h1 : ((q.num.toNat : ℚ)) = ((q.num : ℚ)) := by
      have h0 : 0 ≤ q.num := Rat.num_nonneg.mpr (by linarith)
      exact_mod_cast Int.toNat_of_nonneg h0
    have h2 : ((q.num : ℚ)) / ((q.den : ℚ)) = q := by
      exact_mod_cast Rat.num_div_den q
    rw [h1, h2]
/-- Hex digits decode to their value. -/
theorem hexVal_hexDigitChar (d : ℕ) (h : d < 16) : hexVal (hexDigitChar d) = some d := by
  rw [hexDigitChar]
  by_cases h10 : d < 10
  · rw [if_pos h10, hexVal, charOfNat_toNat _ (Or.inl (by omega))]
    rw [if_pos (by omega)]
    congr 1
    omega
  · rw [if_neg h10, hexVal, charOfNat_toNat _ (Or.inl (by omega))]
    rw [if_neg (by omega), if_pos (by omega)]
    congr 1
    omega

/-- Four rendered hex digits read back to the value. -/
theorem parse4Hex_hex4 (n : ℕ) (h : n < 65536) (r : List Char) :
    parse4Hex (hex4 n ++ r) = some (n, r) := by
  rw [hex4]
  show parse4Hex (hexDigitChar (n / 4096 % 16) :: hexDigitChar (n / 256 % 16)
    :: hexDigitChar (n / 16 % 16) :: hexDigitChar (n % 16) :: r) = some (n, r)
  rw [parse4Hex]
  rw [hexVal_hexDigitChar _ (by omega), hexVal_hexDigitChar _ (by omega),
    hexVal_hexDigitChar _ (by omega), hexVal_hexDigitChar _ (by omega)]
  have hsum : ((n / 4096 % 16 * 16 + n / 256 % 16) * 16 + n / 16 % 16) * 16 + n % 16 = n := by
    omega
  show some (((n / 4096 % 16 * 16 + n / 256 % 16) * 16 + n / 16 % 16) * 16 + n % 16, r)
    = some (n, r)
  rw [hsum]

/-- Decoding inverts escaping, one character at a time. -/
theorem decodeOne_escapeChar (c : Char) (rest : List Char) :
    decodeOne (escapeChar c ++ rest) = some (c, rest) := by
  rw [escapeChar]
  by_cases h1 : c = '"'
  · subst h1
    simp [decodeOne, simpleUnescape]
  rw [if_neg h1]
  by_cases h2 : c = '\\'
  · subst h2
    simp [decodeOne, simpleUnescape]
  rw [if_neg h2]
  by_cases h3 : c = '\x08'
  · subst h3
    simp [decodeOne, simpleUnescape]
  rw [if_neg h3]
  by_cases h4 : c = '\x0C'
  · subst h4
    simp [decodeOne, simpleUnescape]
  rw [if_neg h4]
  by_cases h5 : c = '\n'
  · subst h5
    simp [decodeOne, simpleUnescape]
  rw [if_neg h5]
  by_cases h6 : c = '\r'
  · subst h6
    simp [decodeOne, simpleUnescape]
  rw [if_neg h6]
  by_cases h7 : c = '\t'
  · subst h7
    simp [decodeOne, simpleUnescape]
  rw [if_neg h7]
  have hval := char_valid c
  by_cases h8 : c.toNat < 32 ∨ 126 < c.toNat
  · rw [if_pos h8]
    by_cases h9 : c.toNat < 65536
    · rw [if_pos h9, uEscape]
      show decodeOne ('\\' :: 'u' :: (hex4 c.toNat ++ rest)) = some (c, rest)
      have hp := parse4Hex_hex4 c.toNat h9 rest
      simp only [decodeOne, hp, if_true]
      rw [if_neg (by omega)]
      rw [mkChar, dif_pos (by omega)]
      simp [Char.ofNat_toNat]
    · rw [if_neg h9]
      have hv2 : c.toNat < 1114112 := by omega
      have hhi : 55296 + (c.toNat - 65536) / 1024 < 65536 := by omega
      have hlo : 56320 + (c.toNat - 65536) % 1024 < 65536 := by omega
      have hshape : uEscape (55296 + (c.toNat - 65536) / 1024)
            ++ uEscape (56320 + (c.toNat - 65536) % 1024) ++ rest
          = '\\' :: 'u' :: (hex4 (55296 + (c.toNat - 65536) / 1024)
            ++ ('\\' :: 'u' :: (hex4 (56320 + (c.toNat - 65536) % 1024) ++ rest))) := by
        rw [uEscape, uEscape]
        simp
      rw [hshape]
      have hp1 := parse4Hex_hex4 (55296 + (c.toNat - 65536) / 1024) hhi
        ('\\' :: 'u' :: (hex4 (56320 + (c.toNat - 65536) % 1024) ++ rest))
      have hp2 := parse4Hex_hex4 (56320 + (c.toNat - 65536) % 1024) hlo rest
      simp only [decodeOne, hp1, if_true]
      rw [if_pos (show 55296 ≤ 55296 + (c.toNat - 65536) / 1024 ∧
        55296 + (c.toNat - 65536) / 1024 ≤ 56319 by omega)]
      simp only [hp2, if_true]
      rw [if_pos (show 56320 ≤ 56320 + (c.toNat - 65536) % 1024 ∧
        56320 + (c.toNat - 65536) % 1024 ≤ 57343 by omega)]
      have hcomb : 65536 + (55296 + (c.toNat - 65536) / 1024 - 55296) * 1024
          + (56320 + (c.toNat - 65536) % 1024 - 56320) = c.toNat := by omega
      rw [hcomb, mkChar, dif_pos (by omega)]
      simp [Char.ofNat_toNat]
  · rw [if_neg h8]
    show decodeOne (c :: rest) = some (c, rest)
    rw [decodeOne.eq_def]
    simp [h2]
/-- Escaped characters never begin with a quote. -/
theorem escapeChar_head (c : Char) : ∃ c0 t, escapeChar c = c0 :: t ∧ c0 ≠ '"' := by
  rw [escapeChar]
  by_cases h1 : c = '"'
  · rw [if_pos h1]
    exact ⟨_, _, rfl, by decide⟩
  rw [if_neg h1]
  by_cases h2 : c = '\\'
  · rw [if_pos h2]
    exact ⟨_, _, rfl, by decide⟩
  rw [if_neg h2]
  by_cases h3 : c = '\x08'
  · rw [if_pos h3]
    exact ⟨_, _, rfl, by decide⟩
  rw [if_neg h3]
  by_cases h4 : c = '\x0C'
  · rw [if_pos h4]
    exact ⟨_, _, rfl, by decide⟩
  rw [if_neg h4]
  by_cases h5 : c = '\n'
  · rw [if_pos h5]
    exact ⟨_, _, rfl, by decide⟩
  rw [if_neg h5]
  by_cases h6 : c = '\r'
  · rw [if_pos h6]
    exact ⟨_, _, rfl, by decide⟩
  rw [if_neg h6]
  by_cases h7 : c = '\t'
  · rw [if_pos h7]
    exact ⟨_, _, rfl, by decide⟩
  rw [if_neg h7]
  by_cases h8 : c.toNat < 32 ∨ 126 < c.toNat
  · rw [if_pos h8]
    by_cases h9 : c.toNat < 65536
    · rw [if_pos h9, uEscape]
      exact ⟨_, _, rfl, by decide⟩
    · rw [if_neg h9, uEscape]
      exact ⟨'\\', 'u' :: (hex4 (55296 + (c.toNat - 65536) / 1024)
        ++ uEscape (56320 + (c.toNat - 65536) % 1024)), by simp, by decide⟩
  · rw [if_neg h8]
    exact ⟨c, [], rfl, h1⟩

/-- Reading a serialized string body recovers the original characters. -/
theorem pStr_ser : ∀ (s rest : List Char) (f : ℕ), s.length < f →
    pStr f ((s.map escapeChar).flatten ++ '"' :: rest) = some (s, rest) := by
  intro s
  induction s with
  | nil =>
    intro rest f hf
    cases f with
    | zero => omega
    | succ f => simp [pStr]
  | cons c s ih =>
    intro rest f hf
    cases f with
    | zero => omega
    | succ f =>
      have hin : (((c :: s).map escapeChar).flatten ++ '"' :: rest)
          = escapeChar c ++ ((s.map escapeChar).flatten ++ '"' :: rest) := by
        simp
      rw [hin]
      obtain ⟨c0, t, hct, hc0⟩ := escapeChar_head c
      rw [hct, List.cons_append, pStr, if_neg hc0, ← List.cons_append, ← hct,
        decodeOne_escapeChar c ((s.map escapeChar).flatten ++ '"' :: rest)]
      show Option.map (fun p => (c :: p.1, p.2))
        (pStr f ((s.map escapeChar).flatten ++ '"' :: rest)) = some (c :: s, rest)
      rw [ih rest f (by simpa using hf)]
      rfl
/-- Every document serializes to at least size 1. -/
theorem sizeJ_pos (d : Json) : 1 ≤ sizeJ d := by
  cases d <;> simp only [sizeJ] <;> omega

/-- `skipWs` keeps a string whose head is not whitespace. -/
theorem skipWs_cons_false (c : Char) (t : List Char) (hc : isWs c = false) :
    skipWs (c :: t) = c :: t := by
  rw [skipWs, List.dropWhile_cons, hc]
  simp

/-- `skipWs` removes a whitespace-only prefix. -/
theorem skipWs_pre (pre l : List Char) (hpre : ∀ c ∈ pre, isWs c = true) :
    skipWs (pre ++ l) = skipWs l := by
  induction pre with
  | nil => simp
  | cons c p ih =>
    rw [List.cons_append, skipWs, List.dropWhile_cons, hpre c (by simp)]
    exact ih fun c2 hc2 => hpre c2 (by simp [hc2])

/-- A number head (digit or minus) fails every other dispatch test. -/
theorem numHead_props (c : Char) (h : isDigitC c = true ∨ c = '-') :
    isWs c = false ∧ c ≠ 'n' ∧ c ≠ 't' ∧ c ≠ 'f' ∧ c ≠ '"' ∧ c ≠ '[' ∧ c ≠ '{' ∧ c ≠ ']' := by
  rcases h with h | h
  · rw [isDigitC] at h
    simp at h
    have key : ∀ (x : Char), x.toNat < 48 ∨ 57 < x.toNat → c ≠ x := by
      intro x hx hc
      subst hc
      omega
    have hws : isWs c = false := by
      rw [isWs]
      have h1 := key ' ' (by decide)
      have h2 := key '\t' (by decide)
      have h3 := key '\n' (by decide)
      have h4 := key '\r' (by decide)
      simp [h1, h2, h3, h4]
    exact ⟨hws, key 'n' (by decide), key 't' (by decide), key 'f' (by decide),
      key '"' (by decide), key '[' (by decide), key '\x7b' (by decide), key ']' (by decide)⟩
  · subst h
    refine ⟨by decide, by decide, by decide, by decide, by decide, by decide, by decide, by decide⟩

/-- Head decomposition of a serialized int. -/
theorem renderInt_head (n : ℤ) :
    ∃ c t, renderInt n = c :: t ∧ (isDigitC c = true ∨ c = '-') := by
  rw [renderInt]
  by_cases h : n < 0
  · rw [if_pos h]
    exact ⟨'-', _, rfl, Or.inr rfl⟩
  · rw [if_neg h]
    obtain ⟨c, t, hct, hd⟩ := renderNat_head n.toNat
    exact ⟨c, t, hct, Or.inl hd⟩

/-- Head decomposition of a rendered nonnegative float. -/
theorem renderFloatAbs_head (num den : ℕ) :
    ∃ c t, renderFloatAbs num den = c :: t ∧ isDigitC c = true := by
  rw [renderFloatAbs]
  cases hk : pow2Exp den with
  | none =>
    obtain ⟨c, t, hct, hd⟩ := renderNat_head num
    exact ⟨c, t ++ ['.', '0'], by rw [hct]; simp, hd⟩
  | some k =>
    by_cases hk0 : k = 0
    · subst hk0
      simp only [if_pos rfl]
      obtain ⟨c, t, hct, hd⟩ := renderNat_head num
      exact ⟨c, t ++ ['.', '0'], by rw [hct]; simp, hd⟩
    · simp only [if_neg hk0]
      obtain ⟨c, t, hct, hd⟩ := renderNat_head (num * 5 ^ k / 10 ^ k)
      exact ⟨c, t ++ '.' :: padZeros k (renderNat (num * 5 ^ k % 10 ^ k)),
        by rw [hct]; simp, hd⟩

/-- Head decomposition of a serialized float. -/
theorem serFloat_head (q : ℚ) :
    ∃ c t, serFloat q = c :: t ∧ (isDigitC c = true ∨ c = '-') := by
  rw [serFloat]
  by_cases h : q < 0
  · rw [if_pos h]
    exact ⟨'-', _, rfl, Or.inr rfl⟩
  · rw [if_neg h]
    obtain ⟨c, t, hct, hd⟩ := renderFloatAbs_head q.num.toNat q.den
    exact ⟨c, t, hct, Or.inl hd⟩

/-- Every serialization begins with a non-whitespace character other than a
closing bracket. -/
theorem serJson_head (d : Json) : ∃ c t, serJson d = c :: t ∧ isWs c = false ∧ c ≠ ']' := by
  cases d with
  | jnull => exact ⟨'n', _, rfl, by decide, by decide⟩
  | jbool b =>
    cases b
    · exact ⟨'f', _, rfl, by decide, by decide⟩
    · exact ⟨'t', _, rfl, by decide, by decide⟩
  | jint n =>
    obtain ⟨c, t, hct, hd⟩ := renderInt_head n
    obtain ⟨hws, _, _, _, _, _, _, hbr⟩ := numHead_props c hd
    exact ⟨c, t, hct, hws, hbr⟩
  | jfloat q =>
    obtain ⟨c, t, hct, hd⟩ := serFloat_head q
    obtain ⟨hws, _, _, _, _, _, _, hbr⟩ := numHead_props c hd
    exact ⟨c, t, hct, hws, hbr⟩
  | jstr s => exact ⟨'"', _, rfl, by decide, by decide⟩
  | jarr xs => exact ⟨'[', _, rfl, by decide, by decide⟩
  | jobj kvs => exact ⟨'{', _, rfl, by decide, by decide⟩

/-- Head decomposition of a serialized element list. -/
theorem serElems_head (x : Json) (xs : List Json) :
    ∃ c t, serElems (x :: xs) = c :: t ∧ isWs c = false ∧ c ≠ ']' := by
  obtain ⟨c, t, hct, hws, hbr⟩ := serJson_head x
  cases xs with
  | nil => exact ⟨c, t, hct, hws, hbr⟩
  | cons y ys =>
    exact ⟨c, t ++ ',' :: ' ' :: serElems (y :: ys), by rw [serElems, hct]; simp, hws, hbr⟩

theorem serMembers_head (k : List Char) (v : Json) (kvs : List (List Char × Json)) :
    ∃ t, serMembers ((k, v) :: kvs) = '"' :: t := by
  cases kvs with
  | nil =>
    refine ⟨(k.map escapeChar).flatten ++ '"' :: ':' :: ' ' :: serJson v, ?_⟩
    rw [serMembers, serStr]
    simp
  | cons m ms =>
    refine ⟨(k.map escapeChar).flatten ++ '"' :: ':' :: ' ' :: (serJson v ++ ',' :: ' ' :: serMembers (m :: ms)), ?_⟩
    rw [serMembers, serStr]
    simp

theorem parser_roundtrip_aux (f : ℕ) :
    (∀ (d : Json) (pre rest : List Char), (∀ c ∈ pre, isWs c = true) → wfJson d = true →
      sizeJ d ≤ f → delimOk rest → pVal f (pre ++ serJson d ++ rest) = some (d, rest)) ∧
    (∀ (x : Json) (xs acc : List Json) (pre rest : List Char),
      (∀ c ∈ pre, isWs c = true) → wfElems (x :: xs) = true → sizeElems (x :: xs) ≤ f →
      delimOk rest →
      pElems f (pre ++ serElems (x :: xs) ++ ']' :: rest) acc
        = some (.jarr (acc ++ x :: xs), rest)) ∧
    (∀ (k : List Char) (v : Json) (kvs acc : List (List Char × Json)) (pre rest : List Char),
      (∀ c ∈ pre, isWs c = true) → wfMembers ((k, v) :: kvs) = true →
      sizeMembers ((k, v) :: kvs) ≤ f → delimOk rest →
      pMembers f (pre ++ serMembers ((k, v) :: kvs) ++ '}' :: rest) acc
        = some (.jobj (acc ++ (k, v) :: kvs), rest)) := by
  induction f with
  | zero =>
    refine ⟨fun d pre rest hpre hwf hsz hrest => ?_,
      fun x xs acc pre rest hpre hwf hsz hrest => ?_,
      fun k v kvs acc pre rest hpre hwf hsz hrest => ?_⟩
    · exact absurd hsz (by have := sizeJ_pos d; omega)
    · exact absurd hsz (by simp only [sizeElems]; have := sizeJ_pos x; omega)
    · exact absurd hsz (by simp only [sizeMembers]; have := sizeJ_pos v; omega)
  | succ f ih =>
    obtain ⟨ihV, ihE, ihM⟩ := ih
    refine ⟨fun d pre rest hpre hwf hsz hrest => ?_,
      fun x xs acc pre rest hpre hwf hsz hrest => ?_,
      fun k v kvs acc pre rest hpre hwf hsz hrest => ?_⟩
    · -- pVal
      cases d with
      | jnull =>
        have hskip : skipWs (pre ++ serJson .jnull ++ rest)
            = 'n' :: 'u' :: 'l' :: 'l' :: rest := by
          rw [List.append_assoc, skipWs_pre pre _ hpre]
          exact skipWs_cons_false _ _ (by decide)
        rw [pVal, hskip]
        simp
      | jbool b =>
        cases b
        · have hskip : skipWs (pre ++ serJson (.jbool false) ++ rest)
              = 'f' :: 'a' :: 'l' :: 's' :: 'e' :: rest := by
            rw [List.append_assoc, skipWs_pre pre _ hpre]
            exact skipWs_cons_false _ _ (by decide)
          rw [pVal, hskip]
          simp
        · have hskip : skipWs (pre ++ serJson (.jbool true) ++ rest)
              = 't' :: 'r' :: 'u' :: 'e' :: rest := by
            rw [List.append_assoc, skipWs_pre pre _ hpre]
            exact skipWs_cons_false _ _ (by decide)
          rw [pVal, hskip]
          simp
      | jint n =>
        obtain ⟨c, t, hct, hdig⟩ := renderInt_head n
        obtain ⟨hws, hn, ht, hf, hq, hlb, hcb, _⟩ := numHead_props c hdig
        have hskip : skipWs (pre ++ serJson (.jint n) ++ rest) = c :: (t ++ rest) := by
          rw [List.append_assoc, skipWs_pre pre _ hpre,
            show serJson (.jint n) ++ rest = c :: (t ++ rest) by
              rw [show serJson (.jint n) = renderInt n from rfl, hct]; simp]
          exact skipWs_cons_false _ _ hws
        rw [pVal, hskip]
        simp only [hn, ht, hf, hq, hlb, hcb, if_false, if_neg]
        rw [← List.cons_append, ← hct]
        exact pNum_renderInt n rest hrest
      | jfloat q =>
        obtain ⟨c, t, hct, hdig⟩ := serFloat_head q
        obtain ⟨hws, hn, ht, hf, hq, hlb, hcb, _⟩ := numHead_props c hdig
        have hskip : skipWs (pre ++ serJson (.jfloat q) ++ rest) = c :: (t ++ rest) := by
          rw [List.append_assoc, skipWs_pre pre _ hpre,
            show serJson (.jfloat q) ++ rest = c :: (t ++ rest) by
              rw [show serJson (.jfloat q) = serFloat q from rfl, hct]; simp]
          exact skipWs_cons_false _ _ hws
        rw [pVal, hskip]
        simp only [hn, ht, hf, hq, hlb, hcb, if_false, if_neg]
        rw [← List.cons_append, ← hct]
        exact pNum_serFloat q hwf rest hrest
      | jstr s =>
        have hskip : skipWs (pre ++ serJson (.jstr s) ++ rest)
            = '"' :: ((s.map escapeChar).flatten ++ '"' :: rest) := by
          rw [List.append_assoc, skipWs_pre pre _ hpre,
            show serJson (.jstr s) ++ rest
                = '"' :: ((s.map escapeChar).flatten ++ '"' :: rest) by
              rw [show serJson (.jstr s) = serStr s from rfl, serStr]; simp]
          exact skipWs_cons_false _ _ (by decide)
        have hlen : s.length < f + 1 := by
          simp only [sizeJ] at hsz; omega
        rw [pVal, hskip]
        simp [pStr_ser s rest (f + 1) hlen]
      | jarr xs =>
        cases xs with
        | nil =>
          have hskip : skipWs (pre ++ serJson (.jarr []) ++ rest)
              = '[' :: (']' :: rest) := by
            rw [List.append_assoc, skipWs_pre pre _ hpre,
              show serJson (.jarr []) ++ rest = '[' :: (']' :: rest) by
                rw [show serJson (.jarr []) = '[' :: serElems [] ++ [']'] from rfl, serElems]; simp]
            exact skipWs_cons_false _ _ (by decide)
          rw [pVal, hskip]
          simp [skipWs_cons_false ']' rest (by decide)]
        | cons y ys =>
          obtain ⟨c, t, hct, hws, hbr⟩ := serElems_head y ys
          have hskip : skipWs (pre ++ serJson (.jarr (y :: ys)) ++ rest)
              = '[' :: (serElems (y :: ys) ++ ']' :: rest) := by
            rw [List.append_assoc, skipWs_pre pre _ hpre,
              show serJson (.jarr (y :: ys)) ++ rest
                  = '[' :: (serElems (y :: ys) ++ ']' :: rest) by
                rw [show serJson (.jarr (y :: ys))
                    = '[' :: serElems (y :: ys) ++ [']'] from rfl]; simp]
            exact skipWs_cons_false _ _ (by decide)
          have hskip2 : skipWs (serElems (y :: ys) ++ ']' :: rest)
              = c :: (t ++ ']' :: rest) := by
            rw [hct, List.cons_append]
            exact skipWs_cons_false _ _ hws
          have hsz2 : sizeElems (y :: ys) ≤ f := by
            simp only [sizeJ] at hsz; omega
          have hrec := ihE y ys [] [] rest (by intro c2 hc2; simp at hc2)
            hwf hsz2 hrest
          simp only [List.nil_append] at hrec
          rw [pVal, hskip]
          simp [hskip2, hbr, hrec]
      | jobj kvs =>
        cases kvs with
        | nil =>
          have hskip : skipWs (pre ++ serJson (.jobj []) ++ rest)
              = '{' :: ('}' :: rest) := by
            rw [List.append_assoc, skipWs_pre pre _ hpre,
              show serJson (.jobj []) ++ rest = '{' :: ('}' :: rest) by
                rw [show serJson (.jobj []) = '{' :: serMembers [] ++ ['}'] from rfl, serMembers]; simp]
            exact skipWs_cons_false _ _ (by decide)
          rw [pVal, hskip]
          simp [skipWs_cons_false '}' rest (by decide)]
        | cons kv kvs2 =>
          obtain ⟨k, v⟩ := kv
          obtain ⟨t, hct⟩ := serMembers_head k v kvs2
          have hskip : skipWs (pre ++ serJson (.jobj ((k, v) :: kvs2)) ++ rest)
              = '{' :: (serMembers ((k, v) :: kvs2) ++ '}' :: rest) := by
            rw [List.append_assoc, skipWs_pre pre _ hpre,
              show serJson (.jobj ((k, v) :: kvs2)) ++ rest
                  = '{' :: (serMembers ((k, v) :: kvs2) ++ '}' :: rest) by
                rw [show serJson (.jobj ((k, v) :: kvs2))
                    = '{' :: serMembers ((k, v) :: kvs2) ++ ['}'] from rfl]; simp]
            exact skipWs_cons_false _ _ (by decide)
          have hskip2 : skipWs (serMembers ((k, v) :: kvs2) ++ '}' :: rest)
              = '"' :: (t ++ '}' :: rest) := by
            rw [hct, List.cons_append]
            exact skipWs_cons_false _ _ (by decide)
          have hsz2 : sizeMembers ((k, v) :: kvs2) ≤ f := by
            simp only [sizeJ] at hsz; omega
          have hrec := ihM k v kvs2 [] [] rest (by intro c2 hc2; simp at hc2)
            hwf hsz2 hrest
          simp only [List.nil_append] at hrec
          rw [pVal, hskip]
          simp [hskip2, hrec]
    · -- pElems
      cases xs with
      | nil =>
        have hwfx : wfJson x = true := by
          simp only [wfElems, Bool.and_eq_true] at hwf
          exact hwf.1
        have hszx : sizeJ x ≤ f := by
          simp only [sizeElems] at hsz; omega
        have hval := ihV x pre (']' :: rest) hpre hwfx hszx (by simp [delimOk])
        rw [pElems, show pre ++ serElems [x] ++ ']' :: rest
            = pre ++ serJson x ++ ']' :: rest by rw [serElems], hval]
        simp [skipWs_cons_false ']' rest (by decide)]
      | cons y ys =>
        have hwfx : wfJson x = true := by
          simp only [wfElems, Bool.and_eq_true] at hwf
          exact hwf.1
        have hwf2 : wfElems (y :: ys) = true := by
          simp only [wfElems, Bool.and_eq_true] at hwf ⊢
          exact hwf.2
        have hszx : sizeJ x ≤ f := by
          simp only [sizeElems] at hsz
          have := sizeJ_pos y
          omega
        have hsz2 : sizeElems (y :: ys) ≤ f := by
          simp only [sizeElems] at hsz ⊢
          have := sizeJ_pos x
          omega
        have hval := ihV x pre (',' :: ' ' :: (serElems (y :: ys) ++ ']' :: rest)) hpre hwfx hszx
          (by simp [delimOk])
        have hrec := ihE y ys (acc ++ [x]) [' '] rest
          (by intro c2 hc2; simp at hc2; subst hc2; decide) hwf2 hsz2 hrest
        simp only [List.cons_append, List.nil_append] at hrec
        rw [pElems, show pre ++ serElems (x :: y :: ys) ++ ']' :: rest
            = pre ++ serJson x ++ (',' :: ' ' :: (serElems (y :: ys) ++ ']' :: rest)) by
          rw [serElems]; simp, hval]
        simp [skipWs_cons_false ',' _ (by decide), hrec]
    · -- pMembers
      have hwfv : wfJson v = true := by
        simp only [wfMembers, Bool.and_eq_true] at hwf
        exact hwf.1
      have hklen : k.length < f + 1 := by
        simp only [sizeMembers] at hsz
        have := sizeJ_pos v
        omega
      cases kvs with
      | nil =>
        have hszv : sizeJ v ≤ f := by
          simp only [sizeMembers] at hsz; omega
        have hstr := pStr_ser k (':' :: ' ' :: (serJson v ++ '}' :: rest)) (f + 1) hklen
        have hval := ihV v [' '] ('}' :: rest)
          (by intro c2 hc2; simp at hc2; subst hc2; decide) hwfv hszv (by simp [delimOk])
        simp only [List.cons_append, List.nil_append] at hval
        have h1 : pre ++ serMembers [(k, v)] ++ '}' :: rest
            = pre ++ ('"' :: ((k.map escapeChar).flatten
                ++ '"' :: ':' :: ' ' :: (serJson v ++ '}' :: rest))) := by
          rw [serMembers, serStr]; simp
        rw [pMembers, h1, skipWs_pre pre _ hpre, skipWs_cons_false _ _ (by decide)]
        simp [hstr, skipWs_cons_false ':' _ (by decide), hval,
          skipWs_cons_false '}' rest (by decide)]
      | cons m ms =>
        obtain ⟨k2, v2⟩ := m
        have hwf2 : wfMembers ((k2, v2) :: ms) = true := by
          simp only [wfMembers, Bool.and_eq_true] at hwf ⊢
          exact hwf.2
        have hszv : sizeJ v ≤ f := by
          simp only [sizeMembers] at hsz
          have := sizeJ_pos v2
          omega
        have hsz2 : sizeMembers ((k2, v2) :: ms) ≤ f := by
          simp only [sizeMembers] at hsz ⊢
          have := sizeJ_pos v
          omega
        have hstr := pStr_ser k
          (':' :: ' ' :: (serJson v ++ ',' :: ' ' :: (serMembers ((k2, v2) :: ms) ++ '}' :: rest)))
          (f + 1) hklen
        have hval := ihV v [' ']
          (',' :: ' ' :: (serMembers ((k2, v2) :: ms) ++ '}' :: rest))
          (by intro c2 hc2; simp at hc2; subst hc2; decide) hwfv hszv (by simp [delimOk])
        simp only [List.cons_append, List.nil_append] at hval
        have hrec := ihM k2 v2 ms (acc ++ [(k, v)]) [' '] rest
          (by intro c2 hc2; simp at hc2; subst hc2; decide) hwf2 hsz2 hrest
        simp only [List.cons_append, List.nil_append] at hrec
        have h1 : pre ++ serMembers ((k, v) :: (k2, v2) :: ms) ++ '}' :: rest
            = pre ++ ('"' :: ((k.map escapeChar).flatten
                ++ '"' :: ':' :: ' ' :: (serJson v
                  ++ ',' :: ' ' :: (serMembers ((k2, v2) :: ms) ++ '}' :: rest)))) := by
          rw [serMembers, serStr]; simp
        rw [pMembers, h1, skipWs_pre pre _ hpre, skipWs_cons_false _ _ (by decide)]
        simp [hstr, skipWs_cons_false ':' _ (by decide), hval,
          skipWs_cons_false ',' _ (by decide), hrec]

theorem escFlatten_len (s : List Char) : s.length ≤ ((s.map escapeChar).flatten).length := by
  induction s with
  | nil => simp
  | cons c cs ih =>
    obtain ⟨c0, t, hct, _⟩ := escapeChar_head c
    simp only [List.map_cons, List.flatten_cons, List.length_append, List.length_cons, hct]
    simp only [List.length_cons] at *
    omega

theorem sizeJ_le_aux (f : ℕ) :
    (∀ d : Json, sizeJ d ≤ f → sizeJ d ≤ 2 * (serJson d).length) ∧
    (∀ xs : List Json, sizeElems xs ≤ f → sizeElems xs ≤ 2 * (serElems xs).length + 2) ∧
    (∀ kvs : List (List Char × Json), sizeMembers kvs ≤ f →
      sizeMembers kvs ≤ 2 * (serMembers kvs).length + 2) := by
  induction f with
  | zero =>
    refine ⟨fun d hsz => absurd hsz (by have := sizeJ_pos d; omega),
      fun xs hsz => ?_, fun kvs hsz => ?_⟩
    · cases xs with
      | nil => simp [sizeElems]
      | cons y ys => exact absurd hsz (by simp only [sizeElems]; have := sizeJ_pos y; omega)
    · cases kvs with
      | nil => simp [sizeMembers]
      | cons kv kvs2 =>
        obtain ⟨k, v⟩ := kv
        exact absurd hsz (by simp only [sizeMembers]; have := sizeJ_pos v; omega)
  | succ f ih =>
    obtain ⟨ihV, ihE, ihM⟩ := ih
    refine ⟨fun d hsz => ?_, fun xs hsz => ?_, fun kvs hsz => ?_⟩
    · cases d with
      | jnull => simp [sizeJ, serJson]
      | jbool b => cases b <;> simp [sizeJ, serJson]
      | jint n =>
        obtain ⟨c, t, hct, _⟩ := renderInt_head n
        have : serJson (.jint n) = c :: t := hct
        simp only [sizeJ, this, List.length_cons]
        omega
      | jfloat q =>
        obtain ⟨c, t, hct, _⟩ := serFloat_head q
        have : serJson (.jfloat q) = c :: t := hct
        simp only [sizeJ, this, List.length_cons]
        omega
      | jstr s =>
        have h := escFlatten_len s
        simp only [sizeJ, show serJson (.jstr s) = serStr s from rfl, serStr,
          List.length_cons, List.length_append, List.length_singleton]
        omega
      | jarr xs =>
        have h := ihE xs (by simp only [sizeJ] at hsz; omega)
        simp only [sizeJ, show serJson (.jarr xs) = '[' :: serElems xs ++ [']'] from rfl,
          List.length_append, List.length_cons, List.length_singleton]
        omega
      | jobj kvs =>
        have h := ihM kvs (by simp only [sizeJ] at hsz; omega)
        simp only [sizeJ, show serJson (.jobj kvs) = '{' :: serMembers kvs ++ ['}'] from rfl,
          List.length_append, List.length_cons, List.length_singleton]
        omega
    · cases xs with
      | nil => simp [sizeElems]
      | cons y ys =>
        have hy := ihV y (by simp only [sizeElems] at hsz; omega)
        cases ys with
        | nil =>
          simp only [sizeElems, show serElems [y] = serJson y from rfl]
          omega
        | cons z zs =>
          have hz := ihE (z :: zs)
            (by simp only [sizeElems] at hsz ⊢; have := sizeJ_pos y; omega)
          simp only [sizeElems] at hz ⊢
          simp only [show serElems (y :: z :: zs)
              = serJson y ++ ',' :: ' ' :: serElems (z :: zs) from rfl,
            List.length_append, List.length_cons]
          omega
    · cases kvs with
      | nil => simp [sizeMembers]
      | cons kv kvs2 =>
        obtain ⟨k, v⟩ := kv
        have hv := ihV v (by simp only [sizeMembers] at hsz; omega)
        have hk := escFlatten_len k
        cases kvs2 with
        | nil =>
          simp only [sizeMembers, show serMembers [(k, v)]
              = serStr k ++ ':' :: ' ' :: serJson v from rfl, serStr,
            List.length_append, List.length_cons, List.length_singleton]
          omega
        | cons m ms =>
          have hm := ihM (m :: ms)
            (by simp only [sizeMembers] at hsz ⊢; have := sizeJ_pos v; omega)
          obtain ⟨k2, v2⟩ := m
          simp only [sizeMembers] at hm ⊢
          simp only [show serMembers ((k, v) :: (k2, v2) :: ms)
              = serStr k ++ ':' :: ' ' :: serJson v ++ ',' :: ' ' :: serMembers ((k2, v2) :: ms) from rfl,
            serStr, List.length_append, List.length_cons, List.length_singleton]
          omega

theorem sizeJ_le (d : Json) : sizeJ d ≤ 2 * (serJson d).length :=
  (sizeJ_le_aux (sizeJ d)).1 d le_rfl

theorem parseLine_ser (d : Json) (hwf : wfJson d = true) (tail : List Char)
    (htail : ∀ c ∈ tail, isWs c = true) :
    parseLine (serJson d ++ tail) = some d := by
  have hfuel : sizeJ d ≤ 2 * (serJson d ++ tail).length + 2 := by
    have h1 := sizeJ_le d
    simp only [List.length_append]
    omega
  have h := (parser_roundtrip_aux (2 * (serJson d ++ tail).length + 2)).1 d [] tail
    (by intro c hc; simp at hc) hwf hfuel ?hdel
  case hdel =>
    cases tail with
    | nil => exact trivial
    | cons c t =>
      rw [delimOk]
      exact Or.inr (Or.inr (Or.inr (htail c (by simp))))
  rw [parseLine]
  simp only [List.nil_append] at h
  rw [h]
  have hsk : skipWs tail = [] := by
    rw [skipWs, List.dropWhile_eq_nil_iff]
    intro c hc
    exact htail c hc
  simp [hsk]

theorem hexDigitChar_ge (n : ℕ) (h : n < 16) : 32 ≤ (hexDigitChar n).toNat := by
  rw [hexDigitChar]
  by_cases h10 : n < 10
  · rw [if_pos h10, charOfNat_toNat _ (Or.inl (by omega))]
    omega
  · rw [if_neg h10, charOfNat_toNat _ (Or.inl (by omega))]
    omega

theorem uEscape_ge (n : ℕ) (x : Char) (hx : x ∈ uEscape n) : 32 ≤ x.toNat := by
  rw [uEscape, hex4] at hx
  simp only [List.mem_cons, List.mem_singleton, List.not_mem_nil, or_false] at hx
  rcases hx with rfl | rfl | rfl | rfl | rfl | rfl
  · decide
  · decide
  · exact hexDigitChar_ge _ (Nat.mod_lt _ (by norm_num))
  · exact hexDigitChar_ge _ (Nat.mod_lt _ (by norm_num))
  · exact hexDigitChar_ge _ (Nat.mod_lt _ (by norm_num))
  · exact hexDigitChar_ge _ (Nat.mod_lt _ (by norm_num))

theorem escapeChar_ge (c : Char) (x : Char) (hx : x ∈ escapeChar c) : 32 ≤ x.toNat := by
  rw [escapeChar] at hx
  split_ifs at hx with h1 h2 h3 h4 h5 h6 h7 h8 h9
  · simp at hx; rcases hx with rfl | rfl <;> decide
  · simp at hx; rcases hx with rfl | rfl <;> decide
  · simp at hx; rcases hx with rfl | rfl <;> decide
  · simp at hx; rcases hx with rfl | rfl <;> decide
  · simp at hx; rcases hx with rfl | rfl <;> decide
  · simp at hx; rcases hx with rfl | rfl <;> decide
  · simp at hx; rcases hx with rfl | rfl <;> decide
  · exact uEscape_ge _ _ hx
  · rcases List.mem_append.mp hx with h | h
    · exact uEscape_ge _ _ h
    · exact uEscape_ge _ _ h
  · simp at hx
    subst hx
    omega

theorem digit_ge (c : Char) (h : isDigitC c = true) : 32 ≤ c.toNat := by
  rw [isDigitC] at h
  simp at h
  omega

theorem renderNat_ge (n : ℕ) (x : Char) (hx : x ∈ renderNat n) : 32 ≤ x.toNat := by
  obtain ⟨_, _, hdig⟩ := renderNat_spec n
  exact digit_ge x (hdig x hx)

theorem padZeros_ge (k : ℕ) (ds : List Char) (hds : ∀ x ∈ ds, 32 ≤ x.toNat)
    (x : Char) (hx : x ∈ padZeros k ds) : 32 ≤ x.toNat := by
  rw [padZeros] at hx
  rcases List.mem_append.mp hx with h | h
  · rw [List.eq_of_mem_replicate h]
    decide
  · exact hds x h

theorem renderFloatAbs_ge (num den : ℕ) (x : Char) (hx : x ∈ renderFloatAbs num den) :
    32 ≤ x.toNat := by
  rw [renderFloatAbs] at hx
  split at hx
  · split_ifs at hx with hk0
    · rcases List.mem_append.mp hx with h | h
      · exact renderNat_ge _ _ h
      · simp at h; rcases h with rfl | rfl <;> decide
    · rcases List.mem_append.mp hx with h | h
      · exact renderNat_ge _ _ h
      · simp only [List.mem_cons] at h
        rcases h with rfl | h
        · decide
        · exact padZeros_ge _ _ (fun y hy => renderNat_ge _ _ hy) x h
  · rcases List.mem_append.mp hx with h | h
    · exact renderNat_ge _ _ h
    · simp at h; rcases h with rfl | rfl <;> decide

theorem renderInt_ge (n : ℤ) (x : Char) (hx : x ∈ renderInt n) : 32 ≤ x.toNat := by
  rw [renderInt] at hx
  split_ifs at hx
  · simp only [List.mem_cons] at hx
    rcases hx with rfl | hx
    · decide
    · exact renderNat_ge _ _ hx
  · exact renderNat_ge _ _ hx

theorem serFloat_ge (q : ℚ) (x : Char) (hx : x ∈ serFloat q) : 32 ≤ x.toNat := by
  rw [serFloat] at hx
  split_ifs at hx
  · simp only [List.mem_cons] at hx
    rcases hx with rfl | hx
    · decide
    · exact renderFloatAbs_ge _ _ _ hx
  · exact renderFloatAbs_ge _ _ _ hx

theorem serStr_ge (s : List Char) (x : Char) (hx : x ∈ serStr s) : 32 ≤ x.toNat := by
  rw [serStr] at hx
  rcases List.mem_cons.mp hx with rfl | hx2
  · decide
  rcases List.mem_append.mp hx2 with h | h
  · obtain ⟨l, hl, hxl⟩ := List.mem_flatten.mp h
    obtain ⟨c, _, rfl⟩ := List.mem_map.mp hl
    exact escapeChar_ge c x hxl
  · rw [List.mem_singleton.mp h]
    decide

theorem serJson_ge_aux (f : ℕ) :
    (∀ d : Json, sizeJ d ≤ f → ∀ x ∈ serJson d, 32 ≤ x.toNat) ∧
    (∀ xs : List Json, sizeElems xs ≤ f → ∀ x ∈ serElems xs, 32 ≤ x.toNat) ∧
    (∀ kvs : List (List Char × Json), sizeMembers kvs ≤ f →
      ∀ x ∈ serMembers kvs, 32 ≤ x.toNat) := by
  induction f with
  | zero =>
    refine ⟨fun d hsz => absurd hsz (by have := sizeJ_pos d; omega),
      fun xs hsz => ?_, fun kvs hsz => ?_⟩
    · cases xs with
      | nil => intro x hx; simp [serElems] at hx
      | cons y ys => exact absurd hsz (by simp only [sizeElems]; have := sizeJ_pos y; omega)
    · cases kvs with
      | nil => intro x hx; simp [serMembers] at hx
      | cons kv kvs2 =>
        obtain ⟨k, v⟩ := kv
        exact absurd hsz (by simp only [sizeMembers]; have := sizeJ_pos v; omega)
  | succ f ih =>
    obtain ⟨ihV, ihE, ihM⟩ := ih
    refine ⟨fun d hsz x hx => ?_, fun xs hsz x hx => ?_, fun kvs hsz x hx => ?_⟩
    · cases d with
      | jnull => simp [serJson] at hx; rcases hx with rfl | rfl | rfl | rfl <;> decide
      | jbool b =>
        cases b
        · simp [serJson] at hx
          rcases hx with rfl | rfl | rfl | rfl | rfl <;> decide
        · simp [serJson] at hx
          rcases hx with rfl | rfl | rfl | rfl <;> decide
      | jint n => exact renderInt_ge n x hx
      | jfloat q => exact serFloat_ge q x hx
      | jstr s => exact serStr_ge s x hx
      | jarr xs =>
        have h2 : x ∈ '[' :: serElems xs ++ [']'] := hx
        simp only [List.mem_cons, List.mem_append, List.mem_singleton] at h2
        rcases h2 with (rfl | h) | (rfl | h)
        · decide
        · exact ihE xs (by simp only [sizeJ] at hsz; omega) x h
        · decide
        · simp at h
      | jobj kvs =>
        have h2 : x ∈ '{' :: serMembers kvs ++ ['}'] := hx
        simp only [List.mem_cons, List.mem_append, List.mem_singleton] at h2
        rcases h2 with (rfl | h) | (rfl | h)
        · decide
        · exact ihM kvs (by simp only [sizeJ] at hsz; omega) x h
        · decide
        · simp at h
    · cases xs with
      | nil => simp [serElems] at hx
      | cons y ys =>
        have hy : sizeJ y ≤ f := by simp only [sizeElems] at hsz; omega
        cases ys with
        | nil => exact ihV y hy x hx
        | cons z zs =>
          have h2 : x ∈ serJson y ++ ',' :: ' ' :: serElems (z :: zs) := hx
          simp only [List.mem_append, List.mem_cons] at h2
          rcases h2 with h | rfl | rfl | h
          · exact ihV y hy x h
          · decide
          · decide
          · exact ihE (z :: zs)
              (by simp only [sizeElems] at hsz ⊢; have := sizeJ_pos y; omega) x h
    · cases kvs with
      | nil => simp [serMembers] at hx
      | cons kv kvs2 =>
        obtain ⟨k, v⟩ := kv
        have hv : sizeJ v ≤ f := by simp only [sizeMembers] at hsz; omega
        cases kvs2 with
        | nil =>
          have h2 : x ∈ serStr k ++ ':' :: ' ' :: serJson v := hx
          simp only [List.mem_append, List.mem_cons] at h2
          rcases h2 with h | rfl | rfl | h
          · exact serStr_ge k x h
          · decide
          · decide
          · exact ihV v hv x h
        | cons m ms =>
          obtain ⟨k2, v2⟩ := m
          have h2 : x ∈ serStr k ++ ':' :: ' ' :: (serJson v ++ ',' :: ' ' :: serMembers ((k2, v2) :: ms)) := by
            have : serMembers ((k, v) :: (k2, v2) :: ms)
                = serStr k ++ ':' :: ' ' :: serJson v ++ ',' :: ' ' :: serMembers ((k2, v2) :: ms) := rfl
            rw [this] at hx
            simpa using hx
          simp only [List.mem_append, List.mem_cons] at h2
          rcases h2 with h | rfl | rfl | h | rfl | rfl | h
          · exact serStr_ge k x h
          · decide
          · decide
          · exact ihV v hv x h
          · decide
          · decide
          · exact ihM ((k2, v2) :: ms)
              (by simp only [sizeMembers] at hsz ⊢; have := sizeJ_pos v; omega) x h

theorem serJson_no_newline (d : Json) (x : Char) (hx : x ∈ serJson d) : x ≠ '\n' := by
  intro hxn
  subst hxn
  have h := (serJson_ge_aux (sizeJ d)).1 d le_rfl '\n' hx
  exact absurd h (by decide)

theorem newlineCount_ndjson (docs : List Json) :
    newlineCount (ndjsonChars docs) = docs.length := by
  induction docs with
  | nil => simp [newlineCount, ndjsonChars, ndjsonLines]
  | cons d ds ih =>
    have h1 : ndjsonChars (d :: ds) = (serJson d ++ ['\n']) ++ ndjsonChars ds := by
      simp [ndjsonChars, ndjsonLines]
    rw [newlineCount, h1, List.count_append, List.count_append]
    have h2 : (serJson d).count '\n' = 0 :=
      List.count_eq_zero.mpr fun h => serJson_no_newline d '\n' h rfl
    rw [newlineCount] at ih
    have h3 : List.count '\n' ['\n'] = 1 := rfl
    rw [h2, h3, ih]
    simp [Nat.add_comm]

/-- C8: for every list of generated documents written in line-delimited
format, the sink holds exactly one newline-terminated line per document
(the newline count and the line count both equal the document count), and
parsing any document's line with a standard JSON reader recovers exactly
the document that was serialized. -/
theorem c8_ndjson_roundtrip (docs : List Json) (hwf : ∀ d ∈ docs, wfJson d = true) :
    newlineCount (ndjsonChars docs) = docs.length ∧
    (ndjsonLines docs).length = docs.length ∧
    ∀ d ∈ docs, parseLine (serJson d ++ ['\n']) = some d := by
  refine ⟨newlineCount_ndjson docs, by simp [ndjsonLines], fun d hd => ?_⟩
  refine parseLine_ser d (hwf d hd) ['\n'] ?_
  intro c hc
  simp at hc
  subst hc
  decide

theorem c8_witness :
    (∀ d ∈ [doc0], wfJson d = true) ∧
    (newlineCount (ndjsonChars [doc0]) = 1 ∧ (ndjsonLines [doc0]).length = 1 ∧
      ∀ d ∈ [doc0], parseLine (serJson d ++ ['\n']) = some d) :=
  ⟨by decide, c8_ndjson_roundtrip [doc0] (by decide)⟩

/-- C2: seeded runs are NOT byte-identical: generate_small_template embeds
`datetime.now().isoformat()` (performance_generator.py line 40), a value
drawn from the wall clock rather than from either seeded random source, so
the timestamp field equals the ambient clock string and two runs with
identical seeded streams but different clock readings produce different
output bytes. -/
theorem c2_wall_clock_nondeterminism :
    (∀ (now : List Char) (sentences : List (List Char)) (r : ℕ → ℕ)
      (fkr : ℕ → List Char) (rp fp : ℕ) (docId : List Char),
      getField (generate_small_template now sentences r fkr rp fp docId) ("timestamp".toList)
        = some (.jstr now)) ∧
    ∃ (now1 now2 : List Char) (sentences : List (List Char)) (r : ℕ → ℕ)
      (fkr : ℕ → List Char),
      now1 ≠ now2 ∧
      perfSmallRunLines now1 sentences r fkr 1 ≠ perfSmallRunLines now2 sentences r fkr 1 := by
  constructor
  · intro now sentences r fkr rp fp docId
    rfl
  · exact ⟨"T0".toList, "T1".toList, [['m']], fun _ => 0, fun _ => ['s'],
      by decide, by decide⟩

/-- C10: `if args.seed:` tests truthiness, so seed 0 (like no seed) leaves
both random sources in their ambient unseeded states - two seed-0 runs can
differ when the ambient streams differ - while any nonzero seed replaces
both sources by functions of the seed alone. -/
theorem c10_seed_zero_unseeded :
    (∀ (mtR : ℤ → ℕ → ℕ) (mtF : ℤ → ℕ → List Char) (ambR : ℕ → ℕ) (ambF : ℕ → List Char),
      seededSources (some 0) mtR mtF ambR ambF = (ambR, ambF) ∧
      seededSources none mtR mtF ambR ambF = (ambR, ambF) ∧
      ∀ s : ℤ, s ≠ 0 → seededSources (some s) mtR mtF ambR ambF = (mtR s, mtF s)) ∧
    ∃ (now : List Char) (sentences : List (List Char)) (fkr : ℕ → List Char)
      (amb1 amb2 : ℕ → ℕ),
      perfSmallRunLines now sentences amb1 fkr 1 ≠ perfSmallRunLines now sentences amb2 fkr 1 := by
  constructor
  · intro mtR mtF ambR ambF
    refine ⟨rfl, rfl, fun s hs => ?_⟩
    rw [seededSources]
    simp [hs]
  · exact ⟨"T".toList, [['a'], ['b']], fun _ => ['s'], fun _ => 0, fun _ => 1, by decide⟩

theorem c10_witness :
    seededSources (some 0) (fun s n => s.natAbs + n) (fun _ _ => ['m'])
        (fun n => n) (fun _ => ['a']) = ((fun n => n), (fun _ => ['a'])) ∧
    seededSources (some 7) (fun s n => s.natAbs + n) (fun _ _ => ['m'])
        (fun n => n) (fun _ => ['a'])
      = ((fun n => (7 : ℤ).natAbs + n), (fun _ => ['m'])) :=
  ⟨(c10_seed_zero_unseeded.1 (fun s n => s.natAbs + n) (fun _ _ => ['m'])
      (fun n => n) (fun _ => ['a'])).1,
    (c10_seed_zero_unseeded.1 (fun s n => s.natAbs + n) (fun _ _ => ['m'])
      (fun n => n) (fun _ => ['a'])).2.2 7 (by decide)⟩

theorem perfBatched_zero_rem (t : Tier) (s bs : ℕ) : perfBatched t s 0 bs = [] := by
  rw [perfBatched]
  split_ifs <;> first | rfl | omega

/-- C3: a run with totalCount = 0 generates an empty corpus and an empty
sink, but does NOT complete without error: the statistics step of both
mains divides the total size by `len(documents)` and raises
ZeroDivisionError on the empty corpus. -/
theorem c3_zero_count_zero_division :
    (∀ (sel : Sel) (σ : ℕ → ℕ), generate_documents sel 0 σ = []) ∧
    (∀ (sel : Sel) (bs : ℕ) (σ : ℕ → ℕ), generate_performance_dataset sel 0 bs σ = []) ∧
    ndjsonChars [] = [] ∧
    main_statistics [] = .error ("ZeroDivisionError".toList) := by
  obtain ⟨h1, h2, h3, h4, h5⟩ := counts_at_0
  refine ⟨fun sel σ => ?_, fun sel bs σ => ?_, by simp [ndjsonChars, ndjsonLines], rfl⟩
  · cases sel with
    | tier t => simp [generate_documents, docTierDocs]
    | mixed =>
      simp [generate_documents, generate_mixed_documents, docMixedBase,
        h1, h2, h3, h4, intRange, fisherYates, fyGo]
  · cases sel with
    | tier t => exact perfBatched_zero_rem _ _ _
    | mixed =>
      simp [generate_performance_dataset, perfMixedBase, h1, h2, h3, h5,
        perfBatched_zero_rem, fisherYates, fyGo]
